import Mathlib

/-!
# MyModule: probabilistic square-wave gate oscillator

Shallow embedding of `MyModule::process` (src/MaxPatchPlugins/src/MyModule.cpp,
lines 28-33 and 43-67).

Modelling choices:
* A `float` is a rational number; every arithmetic operation of the source is
  followed by `fl`, rounding to the nearest binary32 value, ties to even, with the
  binary32 precision (24 bits) and minimum exponent (gradual underflow). Each
  operation is rounded on its own (no fused multiply-add, no extended precision).
  Infinities and NaN are outside the model: the exponent is not bounded above, so
  a result of magnitude `2^128` or more, which binary32 turns into an infinity,
  stays finite here. Comparisons are exact, as they are on binary32 values.
* `int bleedCounter` is an `Int`. The counter is only decremented while positive,
  so the decrement never overflows. `static_cast<int>` discards the fractional
  part; C++ leaves the conversion undefined when the result does not fit a 32-bit
  `int`, and `castInt` then returns `-2^31`, the value the x86 conversion
  instruction produces. Every statement that reads a converted value carries
  hypotheses under which the value fits, so none depends on that choice.
* `dis(gen)` is modelled by an explicit stream of draws `dis : Nat → ℚ` together with
  a cursor `gen` held in the state: each evaluation of `dis(gen)` reads `dis gen` and
  advances the cursor by one.
* The four parameters read through `params[...].getValue()` and `args.sampleTime`
  are gathered in one record, supplied afresh on every call.
-/

namespace MyModule

/-! ## binary32 arithmetic -/

/-- Nearest integer to `q`, a tie going to the even neighbour. -/
def roundEven (q : ℚ) : Int :=
  if q - Int.floor q < 1 / 2 then Int.floor q
  else if 1 / 2 < q - Int.floor q then Int.floor q + 1
  else if Int.floor q % 2 = 0 then Int.floor q else Int.floor q + 1

/-- Exponent of the binade of `x`: `2^e ≤ |x| < 2^(e+1)`, and `-126` for zero and
subnormal values. -/
def expo (x : ℚ) : Int :=
  if x = 0 then -126 else max (Int.log 2 |x|) (-126)

/-- Rounding of an exact value to binary32: the nearest multiple of `2^(e-23)`, `e` the
exponent of the binade, ties to even. -/
def fl (x : ℚ) : ℚ :=
  (roundEven (x / 2 ^ (expo x - 23)) : ℚ) * 2 ^ (expo x - 23)

/-- The value `x` is a binary32 value: rounding leaves it unchanged. -/
def isFloat (x : ℚ) : Prop := fl x = x

instance (x : ℚ) : Decidable (isFloat x) := by
  unfold isFloat; infer_instance

/-- The integral part of `x` fits a 32-bit `int`. -/
def fitsInt (x : ℚ) : Prop := -(2 ^ 31) - 1 < x ∧ x < 2 ^ 31

instance (x : ℚ) : Decidable (fitsInt x) := by
  unfold fitsInt; infer_instance

/-- Conversion `static_cast<int>(x)` to a 32-bit `int`: the fractional part is discarded.
Out of range the conversion is undefined in C++; the value returned here is `-2^31`. -/
def castInt (x : ℚ) : Int :=
  if fitsInt x then (if 0 ≤ x then Int.floor x else Int.ceil x) else -(2 ^ 31)

/-! ## The module -/

/-- Mutable members of the module (lines 28-33). `gen` counts the draws taken so far. -/
structure State where
  phase : ℚ
  skipCycle : Bool
  bleedCounter : Int
  gen : Nat

/-- Member initialisers: `phase = 0.f`, `skipCycle = false`, `bleedCounter = 0`. -/
def init : State :=
  { phase := 0, skipCycle := false, bleedCounter := 0, gen := 0 }

/-- Values read at the top of `process` (lines 44-47) and `args.sampleTime`. -/
structure Inputs where
  frequency : ℚ
  pulseWidth : ℚ
  gate : ℚ
  bleed : ℚ
  sampleTime : ℚ

/-- Values written by `process`: the output voltage (line 65) and the light (line 66). -/
structure Outputs where
  squareWave : ℚ
  brightness : ℚ

/-- State update of `process`, lines 49-62. -/
def update (dis : Nat → ℚ) (s : State) (a : Inputs) : State :=
  let phase := fl (s.phase + fl (a.frequency * a.sampleTime))
  if phase ≥ 1 then
    let phase := fl (phase - 1)
    if s.bleedCounter > 0 then
      { phase := phase, skipCycle := false, bleedCounter := s.bleedCounter - 1, gen := s.gen }
    else
      let skipCycle := decide (dis s.gen < a.gate)
      if (!skipCycle) && decide (a.bleed > 0) then
        { phase := phase, skipCycle := skipCycle,
          bleedCounter := castInt (fl (fl (dis (s.gen + 1) * a.bleed) * 10)),
          gen := s.gen + 2 }
      else
        { phase := phase, skipCycle := skipCycle,
          bleedCounter := s.bleedCounter, gen := s.gen + 1 }
  else
    { phase := phase, skipCycle := s.skipCycle, bleedCounter := s.bleedCounter, gen := s.gen }

/-- Output expressions of `process`, lines 64-66, evaluated on the updated state. -/
def emit (s : State) (a : Inputs) : Outputs :=
  { squareWave := if (!s.skipCycle) && decide (s.phase < a.pulseWidth) then 10 else 0,
    brightness := if (!s.skipCycle) && decide (s.phase < a.pulseWidth) then 1 else 0 }

/-- One call of `MyModule::process`: the updated module and what it wrote. -/
def process (dis : Nat → ℚ) (s : State) (a : Inputs) : State × Outputs :=
  let s1 := update dis s a
  (s1, emit s1 a)

/-- Value of `phase` after line 49, `phase += frequency * args.sampleTime`. -/
def phaseSum (s : State) (a : Inputs) : ℚ :=
  fl (s.phase + fl (a.frequency * a.sampleTime))

/-- The call takes the `phase >= 1.f` branch of line 50. -/
def crosses (s : State) (a : Inputs) : Prop :=
  phaseSum s a ≥ 1

instance (s : State) (a : Inputs) : Decidable (crosses s a) := by
  unfold crosses; infer_instance

/-- Module state after a sequence of calls. -/
def run (dis : Nat → ℚ) (s : State) : List Inputs → State
  | [] => s
  | a :: rest => run dis (process dis s a).1 rest

/-- Outputs written by each call of a sequence, in order. -/
def outputs (dis : Nat → ℚ) (s : State) : List Inputs → List Outputs
  | [] => []
  | a :: rest => (process dis s a).2 :: outputs dis (process dis s a).1 rest

/-- Number of calls of a sequence that take the `phase >= 1.f` branch. -/
def crossings (dis : Nat → ℚ) (s : State) : List Inputs → Nat
  | [] => 0
  | a :: rest => (if crosses s a then 1 else 0) + crossings dis (process dis s a).1 rest

/-! ## Integer form of the 2 Hz run

Auxiliary functions for the 2 Hz scenario: the phase counted in units of `2^-32`.
They are proved below to agree with `update`. -/

/-- Nearest multiple of `2^sh` to `N`, ties to the even multiple. -/
def roundShift (N sh : Nat) : Nat :=
  (if 2 * (N % 2 ^ sh) < 2 ^ sh then N / 2 ^ sh
   else if 2 ^ sh < 2 * (N % 2 ^ sh) then N / 2 ^ sh + 1
   else if (N / 2 ^ sh) % 2 = 0 then N / 2 ^ sh else N / 2 ^ sh + 1) * 2 ^ sh

/-- Least shift `sh`, searched upward from the given one, with `N < 2^(24+sh)`. -/
def shiftOf (N : Nat) : Nat → Nat → Nat
  | 0, sh => sh
  | fuel + 1, sh => if N < 2 ^ (24 + sh) then sh else shiftOf N fuel (sh + 1)

/-- Rounding of `N < 2^33` to 24 significant bits. -/
def round24 (N : Nat) : Nat := roundShift N (shiftOf N 9 0)

/-- One call at increment `8589935 * 2^-32` on a phase of `P * 2^-32`. -/
def step2hz (P : Nat) : Nat :=
  if 2 ^ 32 ≤ round24 (P + 8589935) then round24 (P + 8589935) - 2 ^ 32
  else round24 (P + 8589935)

/-- Number of calls, among the next `n`, that leave the phase below one half. -/
def highs2hz : Nat → Nat → Nat
  | 0, _ => 0
  | n + 1, P => (if step2hz P < 2 ^ 31 then 1 else 0) + highs2hz n (step2hz P)

/-! ## Rounding to the nearest integer -/

theorem floor_le_roundEven (q : ℚ) : Int.floor q ≤ roundEven q := by
  unfold roundEven
  split_ifs <;> omega

theorem roundEven_le_floor_add_one (q : ℚ) : roundEven q ≤ Int.floor q + 1 := by
  unfold roundEven
  split_ifs <;> omega

theorem roundEven_of_fract_lt (q : ℚ) (h : q - Int.floor q < 1 / 2) :
    roundEven q = Int.floor q := by
  unfold roundEven
  rw [if_pos h]

theorem le_roundEven (q : ℚ) (n : Int) (h : (n : ℚ) ≤ q) : n ≤ roundEven q :=
  le_trans (Int.le_floor.mpr h) (floor_le_roundEven q)

theorem roundEven_le_of_lt_half (q : ℚ) (n : Int) (h : q < n + 1 / 2) : roundEven q ≤ n := by
  have hfl : Int.floor q ≤ n := by
    have h1 : q < ((n + 1 : Int) : ℚ) := by push_cast; linarith
    have := Int.floor_lt.mpr h1
    omega
  rcases lt_or_eq_of_le hfl with hlt | heq
  · have := roundEven_le_floor_add_one q
    omega
  · rw [roundEven_of_fract_lt]
    · exact hfl
    · rw [heq]
      linarith

theorem roundEven_le (q : ℚ) (n : Int) (h : q ≤ n) : roundEven q ≤ n :=
  roundEven_le_of_lt_half q n (by linarith)

theorem roundEven_eq_of_near (q : ℚ) (n : Int) (h1 : (n : ℚ) - 1 / 2 < q)
    (h2 : q < n + 1 / 2) : roundEven q = n := by
  apply le_antisymm (roundEven_le_of_lt_half q n h2)
  by_cases hn : (n : ℚ) ≤ q
  · exact le_roundEven q n hn
  · have hq : q < n := not_le.mp hn
    have hfl : Int.floor q = n - 1 := by
      rw [Int.floor_eq_iff]
      push_cast
      constructor <;> linarith
    unfold roundEven
    have hfr : ¬ q - Int.floor q < 1 / 2 := by
      rw [hfl]; push_cast; linarith
    have hfr2 : 1 / 2 < q - Int.floor q := by
      rw [hfl]; push_cast; linarith
    rw [if_neg hfr, if_pos hfr2, hfl]
    omega

theorem roundEven_half_odd (n : Int) (h : n % 2 = 1) : roundEven ((n : ℚ) + 1 / 2) = n + 1 := by
  have hfl : Int.floor ((n : ℚ) + 1 / 2) = n := by
    rw [Int.floor_eq_iff]
    constructor <;> linarith
  unfold roundEven
  rw [hfl]
  have e : (n : ℚ) + 1 / 2 - n = 1 / 2 := by ring
  rw [e]
  have hne : ¬ n % 2 = 0 := by omega
  simp [hne]

/-! ## Binades -/

theorem two_zpow_pos (k : Int) : (0 : ℚ) < 2 ^ k := zpow_pos (by norm_num) k

theorem two_zpow_mono {m n : Int} (h : m ≤ n) : (2 : ℚ) ^ m ≤ 2 ^ n :=
  zpow_le_zpow_right₀ (by norm_num) h

theorem expo_ge (x : ℚ) : -126 ≤ expo x := by
  unfold expo
  split_ifs
  · exact le_refl _
  · exact le_max_right _ _

theorem abs_lt_zpow_expo (x : ℚ) : |x| < 2 ^ (expo x + 1) := by
  unfold expo
  split_ifs with h
  · rw [h, abs_zero]
    exact two_zpow_pos _
  · have h1 := Int.lt_zpow_succ_log_self (by norm_num : 1 < 2) |x|
    have h2 : ((2 : ℕ) : ℚ) ^ (Int.log 2 |x| + 1) ≤ 2 ^ (max (Int.log 2 |x|) (-126) + 1) := by
      push_cast
      apply two_zpow_mono
      have := le_max_left (Int.log 2 |x|) (-126)
      omega
    exact lt_of_lt_of_le h1 h2

theorem expo_le_of_abs_lt (x : ℚ) (e : Int) (he : -126 ≤ e) (h : |x| < 2 ^ (e + 1)) :
    expo x ≤ e := by
  unfold expo
  split_ifs with h0
  · exact he
  · apply max_le _ he
    have hpos : 0 < |x| := abs_pos.mpr h0
    have h1 : |x| < ((2 : ℕ) : ℚ) ^ (e + 1) := by push_cast; exact h
    have := (Int.lt_zpow_iff_log_lt (by norm_num : 1 < 2) hpos).mp h1
    omega

theorem le_expo_of_le_abs (x : ℚ) (e : Int) (h : 2 ^ e ≤ |x|) : e ≤ expo x := by
  have hpos : 0 < |x| := lt_of_lt_of_le (two_zpow_pos e) h
  have h0 : x ≠ 0 := abs_pos.mp hpos
  unfold expo
  rw [if_neg h0]
  have h1 : ((2 : ℕ) : ℚ) ^ e ≤ |x| := by push_cast; exact h
  have := (Int.zpow_le_iff_le_log (by norm_num : 1 < 2) hpos).mp h1
  exact le_trans this (le_max_left _ _)

theorem expo_eq_of_binade (x : ℚ) (e : Int) (he : -126 ≤ e) (h1 : 2 ^ e ≤ |x|)
    (h2 : |x| < 2 ^ (e + 1)) : expo x = e :=
  le_antisymm (expo_le_of_abs_lt x e he h2) (le_expo_of_le_abs x e h1)

theorem expo_mono (x y : ℚ) (h : |x| ≤ |y|) : expo x ≤ expo y :=
  expo_le_of_abs_lt x (expo y) (expo_ge y) (lt_of_le_of_lt h (abs_lt_zpow_expo y))

/-! ## Rounding to binary32 -/

theorem fl_eq (x : ℚ) (e : Int) (h : expo x = e) :
    fl x = (roundEven (x / 2 ^ (e - 23)) : ℚ) * 2 ^ (e - 23) := by
  unfold fl
  rw [h]

theorem grid_eq (M u v : Int) (h : v ≤ u) :
    (M : ℚ) * 2 ^ u = ((M * 2 ^ (u - v).toNat : Int) : ℚ) * 2 ^ v := by
  have e : u = ((u - v).toNat : Int) + v := by
    have := Int.toNat_of_nonneg (sub_nonneg.mpr h)
    omega
  have h2 : (2 : ℚ) ≠ 0 := by norm_num
  push_cast
  nth_rewrite 1 [e]
  rw [zpow_add₀ h2, zpow_natCast]
  ring

theorem fl_le_grid (x : ℚ) (M u : Int) (hu : expo x - 23 ≤ u) (h : x ≤ M * 2 ^ u) :
    fl x ≤ M * 2 ^ u := by
  have hp := two_zpow_pos (expo x - 23)
  rw [grid_eq M u (expo x - 23) hu] at h ⊢
  unfold fl
  apply mul_le_mul_of_nonneg_right _ (le_of_lt hp)
  have hq : x / 2 ^ (expo x - 23) ≤ ((M * 2 ^ (u - (expo x - 23)).toNat : Int) : ℚ) := by
    rw [div_le_iff₀ hp]
    exact h
  exact_mod_cast roundEven_le _ _ hq

theorem grid_le_fl (x : ℚ) (M u : Int) (hu : expo x - 23 ≤ u) (h : (M : ℚ) * 2 ^ u ≤ x) :
    (M : ℚ) * 2 ^ u ≤ fl x := by
  have hp := two_zpow_pos (expo x - 23)
  rw [grid_eq M u (expo x - 23) hu] at h ⊢
  unfold fl
  apply mul_le_mul_of_nonneg_right _ (le_of_lt hp)
  have hq : ((M * 2 ^ (u - (expo x - 23)).toNat : Int) : ℚ) ≤ x / 2 ^ (expo x - 23) := by
    rw [le_div_iff₀ hp]
    exact h
  exact_mod_cast le_roundEven _ _ hq

/-- Values `M * 2 ^ u` with a 24-bit `M` and `u ≥ -149` are binary32 values. -/
theorem fl_grid (M u : Int) (hM : |M| < 2 ^ 24) (hu : -149 ≤ u) :
    fl ((M : ℚ) * 2 ^ u) = M * 2 ^ u := by
  have hx : |(M : ℚ) * 2 ^ u| < 2 ^ (23 + u + 1) := by
    rw [abs_mul, abs_of_pos (two_zpow_pos u)]
    have e : (2 : ℚ) ^ (23 + u + 1) = 2 ^ (24 : ℕ) * 2 ^ u := by
      rw [show (23 : Int) + u + 1 = ((24 : ℕ) : Int) + u by push_cast; ring,
        zpow_add₀ (by norm_num : (2 : ℚ) ≠ 0), zpow_natCast]
    rw [e]
    apply mul_lt_mul_of_pos_right _ (two_zpow_pos u)
    have : |(M : ℚ)| = ((|M| : Int) : ℚ) := by push_cast; rfl
    rw [this]
    exact_mod_cast hM
  have he : expo ((M : ℚ) * 2 ^ u) - 23 ≤ u := by
    have := expo_le_of_abs_lt _ (23 + u) (by omega) hx
    omega
  exact le_antisymm (fl_le_grid _ M u he (le_refl _)) (grid_le_fl _ M u he (le_refl _))

theorem fl_zero : fl 0 = 0 := by
  have h := fl_grid 0 0 (by decide) (by decide)
  simpa using h

theorem fl_nonneg (x : ℚ) (h : 0 ≤ x) : 0 ≤ fl x := by
  have h1 := grid_le_fl x 0 (expo x - 23) (le_refl _) (by simpa using h)
  simpa using h1

theorem fl_of_binade (x : ℚ) (e : Int) (he : -126 ≤ e) (h1 : 2 ^ e ≤ |x|)
    (h2 : |x| < 2 ^ (e + 1)) :
    fl x = (roundEven (x / 2 ^ (e - 23)) : ℚ) * 2 ^ (e - 23) :=
  fl_eq x e (expo_eq_of_binade x e he h1 h2)

theorem isFloat_repr (x : ℚ) (h : isFloat x) :
    x = (roundEven (x / 2 ^ (expo x - 23)) : ℚ) * 2 ^ (expo x - 23) := by
  unfold isFloat fl at h
  exact h.symm

theorem roundEven_scaled_bounds (x : ℚ) :
    -2 ^ 24 ≤ roundEven (x / 2 ^ (expo x - 23)) ∧
    roundEven (x / 2 ^ (expo x - 23)) ≤ 2 ^ 24 := by
  have hp := two_zpow_pos (expo x - 23)
  have hx := abs_lt_zpow_expo x
  have e : (2 : ℚ) ^ (expo x + 1) = 2 ^ (24 : ℕ) * 2 ^ (expo x - 23) := by
    rw [show expo x + 1 = ((24 : ℕ) : Int) + (expo x - 23) by push_cast; ring,
      zpow_add₀ (by norm_num : (2 : ℚ) ≠ 0), zpow_natCast]
  rw [e] at hx
  have hq : |x / 2 ^ (expo x - 23)| < 2 ^ (24 : ℕ) := by
    rw [abs_div, abs_of_pos hp, div_lt_iff₀ hp]
    exact hx
  obtain ⟨h1, h2⟩ := abs_lt.mp hq
  constructor
  · apply le_roundEven
    push_cast
    linarith
  · apply roundEven_le
    push_cast
    linarith

/-- Rounding is idempotent: a rounded value is a binary32 value. -/
theorem isFloat_fl (x : ℚ) : isFloat (fl x) := by
  obtain ⟨h1, h2⟩ := roundEven_scaled_bounds x
  have hv : -149 ≤ expo x - 23 := by have := expo_ge x; omega
  unfold isFloat
  by_cases hlt : |roundEven (x / 2 ^ (expo x - 23))| < 2 ^ 24
  · have e : fl x = (roundEven (x / 2 ^ (expo x - 23)) : ℚ) * 2 ^ (expo x - 23) := rfl
    rw [e]
    exact fl_grid _ _ hlt hv
  · have hcases : roundEven (x / 2 ^ (expo x - 23)) = 2 ^ 24 ∨
        roundEven (x / 2 ^ (expo x - 23)) = -2 ^ 24 := by
      rw [abs_lt] at hlt
      omega
    have h2ne : (2 : ℚ) ≠ 0 := by norm_num
    rcases hcases with hc | hc
    · have e : fl x = ((1 : Int) : ℚ) * 2 ^ (24 + (expo x - 23)) := by
        unfold fl
        rw [hc, zpow_add₀ h2ne]
        push_cast
        norm_num
      rw [e]
      exact fl_grid 1 _ (by decide) (by omega)
    · have e : fl x = ((-1 : Int) : ℚ) * 2 ^ (24 + (expo x - 23)) := by
        unfold fl
        rw [hc, zpow_add₀ h2ne]
        push_cast
        norm_num
      rw [e]
      exact fl_grid (-1) _ (by decide) (by omega)

/-- Rounding cannot jump over a binary32 value above the argument. -/
theorem fl_le_float (x y : ℚ) (hx : 0 ≤ x) (hxy : x ≤ y) (hy : isFloat y) : fl x ≤ y := by
  have hy1 := isFloat_repr y hy
  have hm : expo x - 23 ≤ expo y - 23 := by
    have := expo_mono x y (by rw [abs_of_nonneg hx, abs_of_nonneg (le_trans hx hxy)]; exact hxy)
    omega
  have h := fl_le_grid x _ _ hm (by rw [← hy1]; exact hxy)
  rw [← hy1] at h
  exact h

/-- The largest binary32 value below 1 is `1 - 2^-24`. -/
theorem isFloat_lt_one (x : ℚ) (hx : isFloat x) (h : x < 1) : x ≤ 1 - 1 / 2 ^ 24 := by
  by_cases hhalf : x < 1 / 2
  · have : (1 : ℚ) / 2 ≤ 1 - 1 / 2 ^ 24 := by norm_num
    linarith
  · have hge : (1 : ℚ) / 2 ≤ x := not_lt.mp hhalf
    have habs : |x| = x := abs_of_nonneg (by linarith)
    have he : expo x = -1 := by
      apply expo_eq_of_binade x (-1) (by decide)
      · rw [habs]
        norm_num
        linarith
      · rw [habs]
        norm_num
        exact h
    have hr := isFloat_repr x hx
    rw [he] at hr
    have hp : (2 : ℚ) ^ ((-1 : Int) - 23) = 1 / 2 ^ 24 := by norm_num [zpow_neg]
    rw [hp] at hr
    have hn : roundEven (x / (1 / 2 ^ 24)) ≤ 2 ^ 24 - 1 := by
      have h1 : ((roundEven (x / (1 / 2 ^ 24)) : Int) : ℚ) < ((2 ^ 24 : Int) : ℚ) := by
        push_cast
        have hpos : (0 : ℚ) < 1 / 2 ^ 24 := by positivity
        rw [hr] at h
        rw [← lt_div_iff₀ hpos] at h
        norm_num at h ⊢
        exact h
      have := Int.cast_lt.mp h1
      omega
    have hn' : ((roundEven (x / (1 / 2 ^ 24)) : Int) : ℚ) ≤ 2 ^ 24 - 1 := by
      exact_mod_cast hn
    rw [hr]
    calc ((roundEven (x / (1 / 2 ^ 24)) : Int) : ℚ) * (1 / 2 ^ 24)
        ≤ (2 ^ 24 - 1) * (1 / 2 ^ 24) := by
          apply mul_le_mul_of_nonneg_right hn' (by positivity)
      _ = 1 - 1 / 2 ^ 24 := by norm_num

/-- Subtracting 1 from a binary32 value in `[1, 2)` is exact. -/
theorem fl_sub_one (s : ℚ) (hs : isFloat s) (h1 : 1 ≤ s) (h2 : s < 2) :
    fl (s - 1) = s - 1 := by
  have habs : |s| = s := abs_of_nonneg (by linarith)
  have he : expo s = 0 := by
    apply expo_eq_of_binade s 0 (by decide)
    · rw [habs]; simpa using h1
    · rw [habs]; simpa using h2
  have hr := isFloat_repr s hs
  rw [he] at hr
  have hp : (2 : ℚ) ^ ((0 : Int) - 23) = 1 / 2 ^ 23 := by norm_num [zpow_neg]
  rw [hp] at hr
  have hpos : (0 : ℚ) < 1 / 2 ^ 23 := by positivity
  have hlo : (2 : Int) ^ 23 ≤ roundEven (s / (1 / 2 ^ 23)) := by
    have h3 : ((2 ^ 23 : Int) : ℚ) ≤ ((roundEven (s / (1 / 2 ^ 23)) : Int) : ℚ) := by
      push_cast
      rw [hr] at h1
      rw [← div_le_iff₀ hpos] at h1
      norm_num at h1 ⊢
      exact h1
    exact Int.cast_le.mp h3
  have hhi : roundEven (s / (1 / 2 ^ 23)) < 2 ^ 24 := by
    have h3 : ((roundEven (s / (1 / 2 ^ 23)) : Int) : ℚ) < ((2 ^ 24 : Int) : ℚ) := by
      push_cast
      rw [hr] at h2
      rw [← lt_div_iff₀ hpos] at h2
      norm_num at h2 ⊢
      exact h2
    exact Int.cast_lt.mp h3
  have e : s - 1 = ((roundEven (s / (1 / 2 ^ 23)) - 2 ^ 23 : Int) : ℚ) * 2 ^ (-23 : Int) := by
    push_cast
    rw [show (2 : ℚ) ^ (-23 : Int) = 1 / 2 ^ 23 by norm_num [zpow_neg]]
    nth_rewrite 1 [hr]
    ring
  rw [e]
  apply fl_grid
  · rw [abs_lt]
    constructor <;> omega
  · decide

/-! ## Some binary32 values -/

theorem fl_intCast (M : Int) (hM : |M| < 2 ^ 24) : fl (M : ℚ) = M := by
  have h := fl_grid M 0 hM (by decide)
  simpa using h

theorem fl_one : fl 1 = 1 := by
  have h := fl_intCast 1 (by decide)
  simpa using h

theorem fl_two : fl 2 = 2 := by
  have h := fl_intCast 2 (by decide)
  simpa using h

theorem fl_three : fl 3 = 3 := by
  have h := fl_intCast 3 (by decide)
  simpa using h

theorem fl_five : fl 5 = 5 := by
  have h := fl_intCast 5 (by decide)
  simpa using h

theorem fl_neg_one : fl (-1) = -1 := by
  have h := fl_intCast (-1) (by decide)
  simpa using h

/-- Dyadic values `M / 2^k` with a 24-bit numerator are binary32 values. -/
theorem fl_dyadic (M : Int) (k : Nat) (hM : |M| < 2 ^ 24) (hk : k ≤ 149) :
    fl ((M : ℚ) / 2 ^ k) = M / 2 ^ k := by
  have h := fl_grid M (-(k : Int)) hM (by omega)
  rw [zpow_neg, zpow_natCast] at h
  exact h

theorem fl_half : fl (1 / 2) = 1 / 2 := by
  have h := fl_dyadic 1 1 (by decide) (by decide)
  norm_num at h
  simpa using h

theorem fl_quarter : fl (1 / 4) = 1 / 4 := by
  have h := fl_dyadic 1 2 (by decide) (by decide)
  norm_num at h
  simpa using h

/-! ## Basic facts about one call -/

theorem process_fst (dis : Nat → ℚ) (s : State) (a : Inputs) :
    (process dis s a).1 = update dis s a := rfl

theorem process_snd (dis : Nat → ℚ) (s : State) (a : Inputs) :
    (process dis s a).2 = emit (update dis s a) a := rfl

theorem update_of_not_crosses (dis : Nat → ℚ) (s : State) (a : Inputs)
    (h : ¬ crosses s a) :
    update dis s a = { s with phase := phaseSum s a } := by
  unfold crosses phaseSum at h
  unfold update phaseSum
  simp only [h, if_false]

theorem update_hold (dis : Nat → ℚ) (s : State) (a : Inputs)
    (h : crosses s a) (hk : 0 < s.bleedCounter) :
    update dis s a =
      { phase := fl (phaseSum s a - 1), skipCycle := false,
        bleedCounter := s.bleedCounter - 1, gen := s.gen } := by
  unfold crosses phaseSum at h
  unfold update phaseSum
  simp only [h, if_true, gt_iff_lt, hk]

theorem update_reroll (dis : Nat → ℚ) (s : State) (a : Inputs)
    (h : crosses s a) (hk : ¬ 0 < s.bleedCounter) :
    update dis s a =
      if (!decide (dis s.gen < a.gate)) && decide (a.bleed > 0) then
        { phase := fl (phaseSum s a - 1),
          skipCycle := decide (dis s.gen < a.gate),
          bleedCounter := castInt (fl (fl (dis (s.gen + 1) * a.bleed) * 10)),
          gen := s.gen + 2 }
      else
        { phase := fl (phaseSum s a - 1),
          skipCycle := decide (dis s.gen < a.gate),
          bleedCounter := s.bleedCounter, gen := s.gen + 1 } := by
  unfold crosses phaseSum at h
  unfold update phaseSum
  simp only [h, if_true, gt_iff_lt, hk, if_false]

theorem update_phase (dis : Nat → ℚ) (s : State) (a : Inputs) :
    (update dis s a).phase =
      if phaseSum s a ≥ 1 then fl (phaseSum s a - 1) else phaseSum s a := by
  by_cases h : crosses s a
  · have h1 : phaseSum s a ≥ 1 := h
    rw [if_pos h1]
    by_cases hk : 0 < s.bleedCounter
    · rw [update_hold dis s a h hk]
    · rw [update_reroll dis s a h hk]
      split_ifs <;> rfl
  · have h1 : ¬ phaseSum s a ≥ 1 := h
    rw [if_neg h1, update_of_not_crosses dis s a h]

theorem run_append (dis : Nat → ℚ) (s : State) (xs ys : List Inputs) :
    run dis s (xs ++ ys) = run dis (run dis s xs) ys := by
  induction xs generalizing s with
  | nil => rfl
  | cons a rest ih =>
    simp only [List.cons_append, run]
    exact ih _

theorem run_snoc (dis : Nat → ℚ) (s : State) (xs : List Inputs) (a : Inputs) :
    run dis s (xs ++ [a]) = (process dis (run dis s xs) a).1 := by
  rw [run_append]
  rfl

/-! ## Phase -/

theorem phaseSum_bounds (s : State) (a : Inputs)
    (hs : isFloat s.phase ∧ 0 ≤ s.phase ∧ s.phase < 1)
    (ha : 0 ≤ fl (a.frequency * a.sampleTime) ∧ fl (a.frequency * a.sampleTime) < 1) :
    0 ≤ phaseSum s a ∧ phaseSum s a ≤ 2 - 1 / 2 ^ 23 := by
  obtain ⟨hf, h0, h1⟩ := hs
  obtain ⟨d0, d1⟩ := ha
  have hp := isFloat_lt_one _ hf h1
  have hd := isFloat_lt_one _ (isFloat_fl _) d1
  unfold phaseSum
  constructor
  · exact fl_nonneg _ (by linarith)
  · have hx : s.phase + fl (a.frequency * a.sampleTime) ≤
        ((2 ^ 24 - 1 : Int) : ℚ) * 2 ^ (-23 : Int) := by
      rw [show (2 : ℚ) ^ (-23 : Int) = 1 / 2 ^ 23 by norm_num [zpow_neg]]
      push_cast
      norm_num at hp hd ⊢
      linarith
    have he : expo (s.phase + fl (a.frequency * a.sampleTime)) - 23 ≤ -23 := by
      have := expo_le_of_abs_lt (s.phase + fl (a.frequency * a.sampleTime)) 0 (by decide)
        (by
          rw [abs_of_nonneg (by linarith)]
          norm_num at hp hd ⊢
          linarith)
      omega
    have h := fl_le_grid _ _ _ he hx
    rw [show (2 : ℚ) ^ (-23 : Int) = 1 / 2 ^ 23 by norm_num [zpow_neg]] at h
    push_cast at h
    norm_num at h ⊢
    exact h

/-- In the range of the oscillator the wrap `phase -= 1.f` is exact and the phase stays
a binary32 value of `[0, 1)`. -/
theorem update_phase_float (dis : Nat → ℚ) (s : State) (a : Inputs)
    (hs : isFloat s.phase ∧ 0 ≤ s.phase ∧ s.phase < 1)
    (ha : 0 ≤ fl (a.frequency * a.sampleTime) ∧ fl (a.frequency * a.sampleTime) < 1) :
    (update dis s a).phase = (if phaseSum s a ≥ 1 then phaseSum s a - 1 else phaseSum s a) ∧
    isFloat (update dis s a).phase ∧
    0 ≤ (update dis s a).phase ∧ (update dis s a).phase < 1 := by
  obtain ⟨b0, b1⟩ := phaseSum_bounds s a hs ha
  have hfl : isFloat (phaseSum s a) := isFloat_fl _
  rw [update_phase]
  by_cases h : phaseSum s a ≥ 1
  · have h2 : phaseSum s a < 2 := by
      have : (2 : ℚ) - 1 / 2 ^ 23 < 2 := by norm_num
      linarith
    have hsub := fl_sub_one (phaseSum s a) hfl h h2
    simp only [h, if_true]
    refine ⟨hsub, ?_, ?_, ?_⟩
    · rw [hsub]
      have := isFloat_fl (phaseSum s a - 1)
      rw [hsub] at this
      exact this
    · rw [hsub]; linarith
    · rw [hsub]; linarith
  · simp only [h, if_false]
    exact ⟨trivial, hfl, b0, not_le.mp h⟩

theorem run_phase_float (dis : Nat → ℚ) (s : State) (ins : List Inputs)
    (hs : isFloat s.phase ∧ 0 ≤ s.phase ∧ s.phase < 1)
    (hins : ∀ b ∈ ins, 0 ≤ fl (b.frequency * b.sampleTime) ∧
      fl (b.frequency * b.sampleTime) < 1) :
    isFloat (run dis s ins).phase ∧ 0 ≤ (run dis s ins).phase ∧ (run dis s ins).phase < 1 := by
  induction ins generalizing s with
  | nil => exact hs
  | cons a rest ih =>
    simp only [run]
    apply ih
    · exact (update_phase_float dis s a hs (hins a (List.mem_cons_self a rest))).2
    · intro b hb
      exact hins b (List.mem_cons_of_mem a hb)

theorem isFloat_init : isFloat init.phase ∧ 0 ≤ init.phase ∧ init.phase < 1 :=
  ⟨fl_zero, le_refl _, zero_lt_one⟩

theorem fl_tie_below_two : fl (33554431 / 16777216) = 2 := by
  rw [fl_of_binade _ 0 (by decide) (by rw [abs_of_nonneg (by norm_num)]; norm_num)
    (by rw [abs_of_nonneg (by norm_num)]; norm_num)]
  have e : (33554431 / 16777216 : ℚ) / 2 ^ ((0 : Int) - 23) = ((16777215 : Int) : ℚ) + 1 / 2 := by
    norm_num [zpow_neg]
  rw [e, roundEven_half_odd _ (by decide)]
  norm_num [zpow_neg]

theorem fl_tie_below_one : fl (33554431 / 33554432) = 1 := by
  rw [fl_of_binade _ (-1) (by decide) (by rw [abs_of_nonneg (by norm_num)]; norm_num)
    (by rw [abs_of_nonneg (by norm_num)]; norm_num)]
  have e : (33554431 / 33554432 : ℚ) / 2 ^ ((-1 : Int) - 23) =
      ((16777215 : Int) : ℚ) + 1 / 2 := by
    norm_num [zpow_neg]
  rw [e, roundEven_half_odd _ (by decide)]
  norm_num [zpow_neg]

theorem fl_pred_one : fl (16777215 / 16777216) = 16777215 / 16777216 := by
  have h := fl_dyadic 16777215 24 (by decide) (by decide)
  norm_num at h ⊢
  exact h

theorem fl_two_pow_neg25 : fl (1 / 33554432) = 1 / 33554432 := by
  have h := fl_dyadic 1 25 (by decide) (by decide)
  norm_num at h ⊢
  exact h

/-- C10 (amended). Conditional phase invariant in binary32: from a state whose phase is a
binary32 value with `0 ≤ phase < 1`, a call whose rounded increment
`fl (frequency * sampleTime)` lies in `[0, 1)` leaves the phase in `[0, 1)`. With
`sum = fl (phase + fl (frequency * sampleTime))` the value the code compares with 1, the
new phase is `sum` when `sum < 1` (no boundary crossing) and exactly `sum - 1` otherwise
(a boundary crossing). When every further call also meets the precondition, the phase is
in `[0, 1)` after every call of the run. -/
theorem phase_conditional_invariant (dis : Nat → ℚ) (s : State) (a : Inputs)
    (rest : List Inputs)
    (hs : isFloat s.phase ∧ 0 ≤ s.phase ∧ s.phase < 1)
    (ha : 0 ≤ fl (a.frequency * a.sampleTime) ∧ fl (a.frequency * a.sampleTime) < 1)
    (hrest : ∀ b ∈ rest, 0 ≤ fl (b.frequency * b.sampleTime) ∧
      fl (b.frequency * b.sampleTime) < 1) :
    (0 ≤ (process dis s a).1.phase ∧ (process dis s a).1.phase < 1) ∧
    (fl (s.phase + fl (a.frequency * a.sampleTime)) < 1 →
      ¬ crosses s a ∧
      (process dis s a).1.phase = fl (s.phase + fl (a.frequency * a.sampleTime))) ∧
    (¬ fl (s.phase + fl (a.frequency * a.sampleTime)) < 1 →
      crosses s a ∧
      (process dis s a).1.phase = fl (s.phase + fl (a.frequency * a.sampleTime)) - 1) ∧
    (∀ n : Nat, 0 ≤ (run dis s ((a :: rest).take n)).phase ∧
      (run dis s ((a :: rest).take n)).phase < 1) := by
  obtain ⟨e, _, p0, p1⟩ := update_phase_float dis s a hs ha
  refine ⟨⟨p0, p1⟩, ?_, ?_, ?_⟩
  · intro h
    have hc : ¬ phaseSum s a ≥ 1 := not_le.mpr h
    refine ⟨hc, ?_⟩
    rw [process_fst, e, if_neg hc]
    rfl
  · intro h
    have hc : phaseSum s a ≥ 1 := not_lt.mp h
    refine ⟨hc, ?_⟩
    rw [process_fst, e, if_pos hc]
    rfl
  · intro n
    refine (run_phase_float dis s _ hs ?_).2
    intro b hb
    have hb1 : b ∈ a :: rest := List.mem_of_mem_take hb
    rcases List.mem_cons.mp hb1 with rfl | hb2
    · exact ha
    · exact hrest b hb2

/-- Witness for C10 (amended): from phase 1/2 a call with increment 1/2 crosses the
boundary and leaves phase 0; one further call at the same increment follows. -/
theorem phase_conditional_invariant_witness :
    (0 ≤ (process (fun _ => 0) ⟨1 / 2, false, 0, 0⟩ ⟨1, 1 / 2, 0, 0, 1 / 2⟩).1.phase ∧
      (process (fun _ => 0) ⟨1 / 2, false, 0, 0⟩ ⟨1, 1 / 2, 0, 0, 1 / 2⟩).1.phase < 1) ∧
    (process (fun _ => 0) ⟨1 / 2, false, 0, 0⟩ ⟨1, 1 / 2, 0, 0, 1 / 2⟩).1.phase = 0 := by
  have hd : fl ((1 : ℚ) * (1 / 2)) = 1 / 2 := by rw [one_mul, fl_half]
  have hsum : fl ((1 : ℚ) / 2 + 1 / 2) = 1 := by
    rw [show (1 : ℚ) / 2 + 1 / 2 = 1 by norm_num, fl_one]
  have h := phase_conditional_invariant (fun _ => 0) ⟨1 / 2, false, 0, 0⟩
    ⟨1, 1 / 2, 0, 0, 1 / 2⟩ [⟨1, 1 / 2, 0, 0, 1 / 2⟩]
    ⟨fl_half, by norm_num, by norm_num⟩
    (by
      show 0 ≤ fl ((1 : ℚ) * (1 / 2)) ∧ fl ((1 : ℚ) * (1 / 2)) < 1
      rw [hd]
      norm_num)
    (by
      intro b hb
      rw [List.mem_singleton.mp hb]
      show 0 ≤ fl ((1 : ℚ) * (1 / 2)) ∧ fl ((1 : ℚ) * (1 / 2)) < 1
      rw [hd]
      norm_num)
  refine ⟨h.1, ?_⟩
  have h3 := (h.2.2.1 (by
    show ¬ fl ((1 : ℚ) / 2 + fl ((1 : ℚ) * (1 / 2))) < 1
    rw [hd, hsum]
    norm_num)).2
  rw [h3]
  show fl ((1 : ℚ) / 2 + fl ((1 : ℚ) * (1 / 2))) - 1 = 0
  rw [hd, hsum]
  norm_num

/-- C10 (counterexample). The phase `1 - 2^-24` is a binary32 value of `[0, 1)`. A call
with increment 1 (`frequency = 1`, `sampleTime = 1`, inside `[0, 1]`) rounds the sum
`2 - 2^-24` to 2 and stores phase 1, which is not below 1. A call with increment `2^-25`
has an exact sum below 1, yet the rounded sum is 1: the call crosses the boundary and
stores phase 0, not `phase + frequency * sampleTime`. -/
theorem phase_conditional_counterexample :
    isFloat (16777215 / 16777216) ∧
    (0 : ℚ) ≤ 16777215 / 16777216 ∧ (16777215 / 16777216 : ℚ) < 1 ∧
    (0 : ℚ) ≤ 1 * 1 ∧ (1 : ℚ) * 1 ≤ 1 ∧
    (process (fun _ => 0) ⟨16777215 / 16777216, false, 0, 0⟩ ⟨1, 1 / 2, 0, 0, 1⟩).1.phase = 1 ∧
    (0 : ℚ) ≤ 1 * (1 / 33554432) ∧ (1 : ℚ) * (1 / 33554432) ≤ 1 ∧
    (16777215 / 16777216 : ℚ) + 1 * (1 / 33554432) < 1 ∧
    crosses ⟨16777215 / 16777216, false, 0, 0⟩ ⟨1, 1 / 2, 0, 0, 1 / 33554432⟩ ∧
    (process (fun _ => 0) ⟨16777215 / 16777216, false, 0, 0⟩
      ⟨1, 1 / 2, 0, 0, 1 / 33554432⟩).1.phase = 0 := by
  have s1 : fl ((16777215 : ℚ) / 16777216 + fl (1 * 1)) = 2 := by
    rw [one_mul, fl_one, show (16777215 : ℚ) / 16777216 + 1 = 33554431 / 16777216 by norm_num,
      fl_tie_below_two]
  have s2 : fl ((16777215 : ℚ) / 16777216 + fl (1 * (1 / 33554432))) = 1 := by
    rw [one_mul, fl_two_pow_neg25,
      show (16777215 : ℚ) / 16777216 + 1 / 33554432 = 33554431 / 33554432 by norm_num,
      fl_tie_below_one]
  refine ⟨fl_pred_one, by norm_num, by norm_num, by norm_num, by norm_num, ?_,
    by norm_num, by norm_num, by norm_num, ?_, ?_⟩
  · rw [process_fst, update_phase]
    show (if fl ((16777215 : ℚ) / 16777216 + fl (1 * 1)) ≥ 1
      then fl (fl ((16777215 : ℚ) / 16777216 + fl (1 * 1)) - 1)
      else fl ((16777215 : ℚ) / 16777216 + fl (1 * 1))) = 1
    rw [s1]
    norm_num [fl_one]
  · show fl ((16777215 : ℚ) / 16777216 + fl (1 * (1 / 33554432))) ≥ 1
    rw [s2]
  · rw [process_fst, update_phase]
    show (if fl ((16777215 : ℚ) / 16777216 + fl (1 * (1 / 33554432))) ≥ 1
      then fl (fl ((16777215 : ℚ) / 16777216 + fl (1 * (1 / 33554432))) - 1)
      else fl ((16777215 : ℚ) / 16777216 + fl (1 * (1 / 33554432)))) = 0
    rw [s2]
    norm_num [fl_zero]

/-- C1 (amended). Phase bound: starting from the constructed state, for every finite
sequence of calls in which each call has `sampleTime ≥ 0` and a rounded increment
`fl (frequency * sampleTime)` in `[0, 1)`, the stored phase satisfies `0 ≤ phase < 1`
after every call (pulse width, gate, bleed and the draws are arbitrary). -/
theorem phase_bound_from_init (dis : Nat → ℚ) (ins : List Inputs)
    (hins : ∀ b ∈ ins, 0 ≤ b.sampleTime ∧
      0 ≤ fl (b.frequency * b.sampleTime) ∧ fl (b.frequency * b.sampleTime) < 1) :
    ∀ n : Nat, 0 ≤ (run dis init (ins.take n)).phase ∧
      (run dis init (ins.take n)).phase < 1 := by
  intro n
  refine (run_phase_float dis init _ isFloat_init ?_).2
  intro b hb
  exact (hins b (List.mem_of_mem_take hb)).2

/-- Witness for C1 (amended): two calls with `frequency = 1` and `sampleTime = 1/2`. -/
theorem phase_bound_from_init_witness :
    0 ≤ (run (fun _ => 0) init
        (([⟨1, 1 / 2, 1 / 2, 1 / 2, 1 / 2⟩, ⟨1, 1 / 2, 1 / 2, 1 / 2, 1 / 2⟩] :
          List Inputs).take 2)).phase ∧
      (run (fun _ => 0) init
        (([⟨1, 1 / 2, 1 / 2, 1 / 2, 1 / 2⟩, ⟨1, 1 / 2, 1 / 2, 1 / 2, 1 / 2⟩] :
          List Inputs).take 2)).phase < 1 :=
  phase_bound_from_init (fun _ => 0)
    [⟨1, 1 / 2, 1 / 2, 1 / 2, 1 / 2⟩, ⟨1, 1 / 2, 1 / 2, 1 / 2, 1 / 2⟩]
    (by
      have hd : fl ((1 : ℚ) * (1 / 2)) = 1 / 2 := by rw [one_mul, fl_half]
      intro b hb
      simp only [List.mem_cons, List.mem_singleton, List.not_mem_nil, or_false, or_self] at hb
      rw [hb]
      show (0 : ℚ) ≤ 1 / 2 ∧ 0 ≤ fl ((1 : ℚ) * (1 / 2)) ∧ fl ((1 : ℚ) * (1 / 2)) < 1
      rw [hd]
      norm_num) 2

/-- C1 (counterexample). From the constructed state, one call with `sampleTime = 1 ≥ 0`
and `frequency = 3` leaves `phase = 2` (a single subtraction), and one call with
`sampleTime = 1 ≥ 0` and `frequency = -1` leaves `phase = -1`: both outside `[0, 1)`. -/
theorem phase_bound_counterexample :
    (0 : ℚ) ≤ (Inputs.mk 3 (1 / 2) 0 0 1).sampleTime ∧
    (process (fun _ => 0) init (Inputs.mk 3 (1 / 2) 0 0 1)).1.phase = 2 ∧
    ¬ (process (fun _ => 0) init (Inputs.mk 3 (1 / 2) 0 0 1)).1.phase < 1 ∧
    (0 : ℚ) ≤ (Inputs.mk (-1) (1 / 2) 0 0 1).sampleTime ∧
    (process (fun _ => 0) init (Inputs.mk (-1) (1 / 2) 0 0 1)).1.phase = -1 ∧
    ¬ 0 ≤ (process (fun _ => 0) init (Inputs.mk (-1) (1 / 2) 0 0 1)).1.phase := by
  have p1 : (process (fun _ => 0) init (Inputs.mk 3 (1 / 2) 0 0 1)).1.phase = 2 := by
    rw [process_fst, update_phase]
    show (if fl ((0 : ℚ) + fl (3 * 1)) ≥ 1 then fl (fl ((0 : ℚ) + fl (3 * 1)) - 1)
      else fl ((0 : ℚ) + fl (3 * 1))) = 2
    rw [mul_one, fl_three, zero_add, fl_three]
    norm_num [fl_two]
  have p2 : (process (fun _ => 0) init (Inputs.mk (-1) (1 / 2) 0 0 1)).1.phase = -1 := by
    rw [process_fst, update_phase]
    show (if fl ((0 : ℚ) + fl (-1 * 1)) ≥ 1 then fl (fl ((0 : ℚ) + fl (-1 * 1)) - 1)
      else fl ((0 : ℚ) + fl (-1 * 1))) = -1
    rw [mul_one, fl_neg_one, zero_add, fl_neg_one]
    norm_num
  refine ⟨by norm_num, p1, ?_, by norm_num, p2, ?_⟩
  · rw [p1]; norm_num
  · rw [p2]; norm_num

/-! ## Outputs -/

theorem emit_cases (t : State) (a : Inputs) :
    emit t a =
      (if t.skipCycle = false ∧ t.phase < a.pulseWidth
       then { squareWave := 10, brightness := 1 }
       else { squareWave := 0, brightness := 0 }) ∧
    ((emit t a).squareWave = 0 ∨ (emit t a).squareWave = 10) ∧
    ((emit t a).brightness = 0 ∨ (emit t a).brightness = 1) ∧
    (emit t a).squareWave = 10 * (emit t a).brightness := by
  obtain ⟨ph, sk, bc, g⟩ := t
  cases sk <;> by_cases hp : ph < a.pulseWidth <;> simp [emit, hp]

/-- C5. Output mapping: a call writes voltage 10 and light level 1 when, after its
state update, `skipCycle` is false and `phase < pulseWidth`, and voltage 0 and light
level 0 otherwise; so the voltage is 0 or 10, the light is 0 or 1, and the voltage is
ten times the light. -/
theorem output_mapping (dis : Nat → ℚ) (s : State) (a : Inputs) :
    (process dis s a).2 =
      (if (process dis s a).1.skipCycle = false ∧ (process dis s a).1.phase < a.pulseWidth
       then { squareWave := 10, brightness := 1 }
       else { squareWave := 0, brightness := 0 }) ∧
    ((process dis s a).2.squareWave = 0 ∨ (process dis s a).2.squareWave = 10) ∧
    ((process dis s a).2.brightness = 0 ∨ (process dis s a).2.brightness = 1) ∧
    (process dis s a).2.squareWave = 10 * (process dis s a).2.brightness := by
  exact emit_cases (update dis s a) a

/-! ## Runs -/

theorem crossings_append (dis : Nat → ℚ) (s : State) (xs ys : List Inputs) :
    crossings dis s (xs ++ ys) = crossings dis s xs + crossings dis (run dis s xs) ys := by
  induction xs generalizing s with
  | nil => simp [crossings, run]
  | cons a rest ih =>
    rw [List.cons_append]
    simp only [crossings, run]
    rw [ih]
    ring

theorem outputs_length (dis : Nat → ℚ) (s : State) (ins : List Inputs) :
    (outputs dis s ins).length = ins.length := by
  induction ins generalizing s with
  | nil => rfl
  | cons a rest ih =>
    simp only [outputs, List.length_cons]
    rw [ih]

/-- A run without boundary crossing leaves the flag, the counter and the cursor alone. -/
theorem run_no_crossings (dis : Nat → ℚ) (s : State) (ins : List Inputs)
    (h : crossings dis s ins = 0) :
    (run dis s ins).skipCycle = s.skipCycle ∧
    (run dis s ins).bleedCounter = s.bleedCounter ∧
    (run dis s ins).gen = s.gen := by
  induction ins generalizing s with
  | nil => exact ⟨rfl, rfl, rfl⟩
  | cons a rest ih =>
    simp only [crossings] at h
    have hc : ¬ crosses s a := by
      intro hc
      rw [if_pos hc] at h
      omega
    rw [if_neg hc, Nat.zero_add] at h
    simp only [run]
    have h2 := ih (process dis s a).1 h
    rw [process_fst, update_of_not_crosses dis s a hc] at h2
    rw [process_fst, update_of_not_crosses dis s a hc]
    exact h2

/-- While the counter is positive every crossing decrements it and no draw is taken. -/
theorem run_hold (dis : Nat → ℚ) (k : Nat) (s : State) (ins : List Inputs)
    (hk : s.bleedCounter = (k : Int)) (h : crossings dis s ins ≤ k) :
    (run dis s ins).bleedCounter = (k : Int) - (crossings dis s ins : Int) ∧
    (run dis s ins).gen = s.gen := by
  induction ins generalizing s k with
  | nil => simp [run, crossings, hk]
  | cons a rest ih =>
    simp only [crossings] at h
    simp only [run, crossings]
    by_cases hc : crosses s a
    · rw [if_pos hc] at h
      rw [if_pos hc]
      have hpos : 0 < s.bleedCounter := by rw [hk]; omega
      have hu := update_hold dis s a hc hpos
      have hk1 : (process dis s a).1.bleedCounter = ((k - 1 : Nat) : Int) := by
        rw [process_fst, hu]
        simp only
        rw [hk]
        omega
      have h1 : crossings dis (process dis s a).1 rest ≤ k - 1 := by omega
      obtain ⟨e1, e2⟩ := ih (k - 1) (process dis s a).1 hk1 h1
      refine ⟨?_, ?_⟩
      · rw [e1]
        push_cast
        omega
      · rw [e2, process_fst, hu]
    · rw [if_neg hc, Nat.zero_add] at h
      rw [if_neg hc, Nat.zero_add]
      have hu := update_of_not_crosses dis s a hc
      have hk1 : (process dis s a).1.bleedCounter = (k : Int) := by
        rw [process_fst, hu]
        exact hk
      obtain ⟨e1, e2⟩ := ih k (process dis s a).1 hk1 h
      refine ⟨e1, ?_⟩
      rw [e2, process_fst, hu]

/-- A call with `frequency = 1` and `sampleTime = 1` on phase 0 crosses the boundary and
leaves phase 0. -/
theorem update_unit (dis : Nat → ℚ) (s : State) (a : Inputs)
    (hs : s.phase = 0) (hf : a.frequency = 1) (ht : a.sampleTime = 1) :
    crosses s a ∧ (update dis s a).phase = 0 := by
  have e : phaseSum s a = 1 := by
    unfold phaseSum
    rw [hs, hf, ht, mul_one, fl_one, zero_add, fl_one]
  have hc : crosses s a := by
    unfold crosses
    rw [e]
  refine ⟨hc, ?_⟩
  rw [update_phase, e]
  norm_num [fl_zero]

/-- A call with `frequency = 0` on phase 0 does not cross the boundary. -/
theorem not_crosses_still (s : State) (a : Inputs) (hs : s.phase = 0)
    (hf : a.frequency = 0) : ¬ crosses s a := by
  unfold crosses phaseSum
  rw [hs, hf, zero_mul, fl_zero, zero_add, fl_zero]
  norm_num

/-! ## Gate probability 0 -/

theorem update_gate_zero (dis : Nat → ℚ) (s : State) (a : Inputs)
    (hd : 0 ≤ dis s.gen) (ha : a.gate = 0 ∧ a.bleed = 0)
    (hs : s.skipCycle = false ∧ s.bleedCounter = 0) :
    (update dis s a).skipCycle = false ∧ (update dis s a).bleedCounter = 0 := by
  obtain ⟨hg, hb⟩ := ha
  obtain ⟨h1, h2⟩ := hs
  by_cases hc : crosses s a
  · have hk : ¬ 0 < s.bleedCounter := by rw [h2]; exact lt_irrefl 0
    rw [update_reroll dis s a hc hk]
    have hlt : ¬ dis s.gen < a.gate := by rw [hg]; exact not_lt.mpr hd
    have hbl : ¬ a.bleed > 0 := by rw [hb]; exact lt_irrefl 0
    simp [hlt, hbl, h2]
  · rw [update_of_not_crosses dis s a hc]
    exact ⟨h1, h2⟩

theorem run_gate_zero (dis : Nat → ℚ) (s : State) (ins : List Inputs)
    (hdis : ∀ n, 0 ≤ dis n)
    (hins : ∀ b ∈ ins, b.gate = 0 ∧ b.bleed = 0)
    (hs : s.skipCycle = false ∧ s.bleedCounter = 0) :
    (run dis s ins).skipCycle = false ∧ (run dis s ins).bleedCounter = 0 := by
  induction ins generalizing s with
  | nil => exact hs
  | cons a rest ih =>
    simp only [run]
    apply ih
    · intro b hb
      exact hins b (List.mem_cons_of_mem a hb)
    · exact update_gate_zero dis s a (hdis s.gen) (hins a (List.mem_cons_self a rest)) hs

theorem emit_squareWave_of_not_skip (t : State) (a : Inputs) (h : t.skipCycle = false) :
    (emit t a).squareWave = if t.phase < a.pulseWidth then 10 else 0 := by
  simp [emit, h]

theorem emit_squareWave_of_skip (t : State) (a : Inputs) (h : t.skipCycle = true) :
    (emit t a).squareWave = 0 := by
  simp [emit, h]

/-- C2. Gate probability 0: starting from the constructed state, in a sequence of calls
that all have `gate = 0` and `bleed = 0`, with every draw in `[0, 1)`, each call `a`
(made after the calls `pre`) leaves `skipCycle = false` and `bleedCounter = 0`, and its
voltage is 10 exactly when the updated phase is below `pulseWidth`, and 0 otherwise. -/
theorem gate_zero_square_wave (dis : Nat → ℚ) (pre : List Inputs) (a : Inputs)
    (hdis : ∀ n, 0 ≤ dis n ∧ dis n < 1)
    (hpre : ∀ b ∈ pre, b.gate = 0 ∧ b.bleed = 0)
    (ha : a.gate = 0 ∧ a.bleed = 0) :
    (process dis (run dis init pre) a).1.skipCycle = false ∧
    (process dis (run dis init pre) a).1.bleedCounter = 0 ∧
    (process dis (run dis init pre) a).2.squareWave =
      (if (process dis (run dis init pre) a).1.phase < a.pulseWidth then 10 else 0) := by
  have h0 := run_gate_zero dis init pre (fun n => (hdis n).1) hpre ⟨rfl, rfl⟩
  have h1 := update_gate_zero dis (run dis init pre) a (hdis _).1 ha h0
  refine ⟨h1.1, h1.2, ?_⟩
  exact emit_squareWave_of_not_skip _ a h1.1

/-- Witness for C2: two calls with `frequency = 1`, `sampleTime = 1`; each crosses the
boundary and draws 1/2, the second leaves phase 0 and writes 10. -/
theorem gate_zero_square_wave_witness :
    (process (fun _ => 1 / 2) (run (fun _ => 1 / 2) init [⟨1, 1 / 2, 0, 0, 1⟩])
      ⟨1, 1 / 2, 0, 0, 1⟩).1.skipCycle = false ∧
    (process (fun _ => 1 / 2) (run (fun _ => 1 / 2) init [⟨1, 1 / 2, 0, 0, 1⟩])
      ⟨1, 1 / 2, 0, 0, 1⟩).2.squareWave = 10 := by
  have h := gate_zero_square_wave (fun _ => 1 / 2) [⟨1, 1 / 2, 0, 0, 1⟩] ⟨1, 1 / 2, 0, 0, 1⟩
    (by intro n; norm_num)
    (by
      intro b hb
      rw [List.mem_singleton.mp hb]
      exact ⟨rfl, rfl⟩)
    ⟨rfl, rfl⟩
  refine ⟨h.1, ?_⟩
  rw [h.2.2]
  have p1 : (run (fun _ => 1 / 2) init [⟨1, 1 / 2, 0, 0, 1⟩]).phase = 0 :=
    (update_unit (fun _ => 1 / 2) init ⟨1, 1 / 2, 0, 0, 1⟩ rfl rfl rfl).2
  have p2 := (update_unit (fun _ => 1 / 2) (run (fun _ => 1 / 2) init [⟨1, 1 / 2, 0, 0, 1⟩])
    ⟨1, 1 / 2, 0, 0, 1⟩ p1 rfl rfl).2
  rw [process_fst, p2]
  norm_num

/-! ## Gate probability 1 -/

theorem update_gate_one_cross (dis : Nat → ℚ) (s : State) (a : Inputs)
    (hc : crosses s a) (hk : s.bleedCounter = 0) (hg : a.gate = 1) (hd : dis s.gen < 1) :
    (update dis s a).skipCycle = true ∧ (update dis s a).bleedCounter = 0 ∧
    (update dis s a).gen = s.gen + 1 := by
  have hk0 : ¬ 0 < s.bleedCounter := by rw [hk]; exact lt_irrefl 0
  rw [update_reroll dis s a hc hk0]
  have hlt : dis s.gen < a.gate := by rw [hg]; exact hd
  simp [hlt, hk]

/-- C4. Gate probability 1: from a state with `bleedCounter = 0`, a call that crosses the
cycle boundary with `gate = 1` and a first draw in `[0, 1)` leaves `skipCycle = true` and
`bleedCounter = 0`, takes exactly one draw, and writes voltage 0; every following call
`b` reached without a further boundary crossing (itself included) also writes voltage 0,
whatever the pulse widths and the other inputs are. -/
theorem gate_one_suppresses (dis : Nat → ℚ) (s : State) (a : Inputs)
    (hk : s.bleedCounter = 0) (hc : crosses s a) (hg : a.gate = 1)
    (hd : 0 ≤ dis s.gen ∧ dis s.gen < 1) :
    (process dis s a).1.skipCycle = true ∧
    (process dis s a).1.bleedCounter = 0 ∧
    (process dis s a).1.gen = s.gen + 1 ∧
    (process dis s a).2.squareWave = 0 ∧
    (∀ (rest : List Inputs) (b : Inputs),
      crossings dis (process dis s a).1 (rest ++ [b]) = 0 →
      (process dis (run dis (process dis s a).1 rest) b).2.squareWave = 0) := by
  have hu := update_gate_one_cross dis s a hc hk hg hd.2
  refine ⟨hu.1, hu.2.1, hu.2.2, ?_, ?_⟩
  · exact emit_squareWave_of_skip _ a hu.1
  · intro rest b hz
    have h1 := (run_no_crossings dis (process dis s a).1 (rest ++ [b]) hz).1
    rw [run_snoc] at h1
    apply emit_squareWave_of_skip
    rw [← process_fst, h1]
    exact hu.1

/-- Witness for C4: a crossing call from phase 0 with `bleed = 1`, followed by a call
that stays inside the cycle with pulse width 9/10. -/
theorem gate_one_suppresses_witness :
    (process (fun _ => 1 / 2) ⟨0, false, 0, 0⟩ ⟨1, 1 / 2, 1, 1, 1⟩).1.skipCycle = true ∧
    (process (fun _ => 1 / 2) (run (fun _ => 1 / 2)
      (process (fun _ => 1 / 2) ⟨0, false, 0, 0⟩ ⟨1, 1 / 2, 1, 1, 1⟩).1 [])
      ⟨0, 9 / 10, 1, 1, 1⟩).2.squareWave = 0 := by
  have hu := update_unit (fun _ => 1 / 2) ⟨0, false, 0, 0⟩ ⟨1, 1 / 2, 1, 1, 1⟩ rfl rfl rfl
  have h := gate_one_suppresses (fun _ => 1 / 2) ⟨0, false, 0, 0⟩ ⟨1, 1 / 2, 1, 1, 1⟩
    rfl hu.1 rfl (by norm_num)
  refine ⟨h.1, h.2.2.2.2 [] ⟨0, 9 / 10, 1, 1, 1⟩ ?_⟩
  have hn := not_crosses_still
    (process (fun _ => 1 / 2) ⟨0, false, 0, 0⟩ ⟨1, 1 / 2, 1, 1, 1⟩).1 ⟨0, 9 / 10, 1, 1, 1⟩
    hu.2 rfl
  show crossings (fun _ => 1 / 2)
    (process (fun _ => 1 / 2) ⟨0, false, 0, 0⟩ ⟨1, 1 / 2, 1, 1, 1⟩).1 [⟨0, 9 / 10, 1, 1, 1⟩] = 0
  unfold crossings
  rw [if_neg hn]
  rfl

theorem run_gate_one (dis : Nat → ℚ) (s : State) (ins : List Inputs)
    (hdis : ∀ n, dis n < 1) (hins : ∀ b ∈ ins, b.gate = 1)
    (hs : s.bleedCounter = 0) :
    (run dis s ins).bleedCounter = 0 ∧
    (1 ≤ crossings dis s ins → (run dis s ins).skipCycle = true) ∧
    (crossings dis s ins = 0 → (run dis s ins).skipCycle = s.skipCycle) := by
  induction ins generalizing s with
  | nil =>
    refine ⟨hs, ?_, fun _ => rfl⟩
    intro h
    simp [crossings] at h
  | cons a rest ih =>
    have hrest : ∀ b ∈ rest, b.gate = 1 := fun b hb => hins b (List.mem_cons_of_mem a hb)
    simp only [run, crossings]
    by_cases hc : crosses s a
    · have hu := update_gate_one_cross dis s a hc hs (hins a (List.mem_cons_self a rest))
        (hdis s.gen)
      obtain ⟨e1, e2, e3⟩ := ih (process dis s a).1 hrest hu.2.1
      rw [if_pos hc]
      refine ⟨e1, ?_, ?_⟩
      · intro _
        by_cases hz : crossings dis (process dis s a).1 rest = 0
        · rw [e3 hz]
          exact hu.1
        · exact e2 (Nat.one_le_iff_ne_zero.mpr hz)
      · intro h
        omega
    · have hu := update_of_not_crosses dis s a hc
      have hk : (process dis s a).1.bleedCounter = 0 := by
        rw [process_fst, hu]
        exact hs
      obtain ⟨e1, e2, e3⟩ := ih (process dis s a).1 hrest hk
      rw [if_neg hc, Nat.zero_add]
      refine ⟨e1, e2, ?_⟩
      intro h
      rw [e3 h, process_fst, hu]

/-- C7 (amended). Scenario `gate = 1`, `bleed = 0`: starting from the constructed state,
in a sequence of calls that all have these settings (any frequency, pulse width,
non-negative sample time, draws in `[0, 1)`), a call `a` made after the calls `pre`
leaves `skipCycle = true` when it crosses the boundary; once the run has crossed the
boundary at least once the flag is true and the voltage is 0; before the first crossing
the flag still has its constructed value false and the call writes the unsuppressed
square wave (10 when the updated phase is below `pulseWidth`, else 0). -/
theorem gate_one_scenario (dis : Nat → ℚ) (pre : List Inputs) (a : Inputs)
    (hdis : ∀ n, 0 ≤ dis n ∧ dis n < 1)
    (hpre : ∀ b ∈ pre, b.gate = 1 ∧ b.bleed = 0 ∧ 0 ≤ b.sampleTime)
    (ha : a.gate = 1 ∧ a.bleed = 0 ∧ 0 ≤ a.sampleTime) :
    (crosses (run dis init pre) a →
      (process dis (run dis init pre) a).1.skipCycle = true) ∧
    (1 ≤ crossings dis init (pre ++ [a]) →
      (process dis (run dis init pre) a).1.skipCycle = true ∧
      (process dis (run dis init pre) a).2.squareWave = 0) ∧
    (crossings dis init (pre ++ [a]) = 0 →
      (process dis (run dis init pre) a).1.skipCycle = false ∧
      (process dis (run dis init pre) a).2.squareWave =
        (if (process dis (run dis init pre) a).1.phase < a.pulseWidth then 10 else 0)) := by
  have hall : ∀ b ∈ pre ++ [a], b.gate = 1 := by
    intro b hb
    rcases List.mem_append.mp hb with h | h
    · exact (hpre b h).1
    · rw [List.mem_singleton.mp h]
      exact ha.1
  have h0 := run_gate_one dis init pre (fun n => (hdis n).2) (fun b hb => (hpre b hb).1) rfl
  obtain ⟨_, e2, e3⟩ := run_gate_one dis init (pre ++ [a]) (fun n => (hdis n).2) hall rfl
  rw [run_snoc] at e2 e3
  refine ⟨?_, ?_, ?_⟩
  · intro hc
    exact (update_gate_one_cross dis _ a hc h0.1 ha.1 (hdis _).2).1
  · intro h
    exact ⟨e2 h, emit_squareWave_of_skip _ a (e2 h)⟩
  · intro h
    exact ⟨e3 h, emit_squareWave_of_not_skip _ a (e3 h)⟩

/-- Witness for C7 (amended): the second of two calls with `frequency = 1` and
`sampleTime = 1` crosses the boundary and writes 0 although the pulse width is 9/10. -/
theorem gate_one_scenario_witness :
    (process (fun _ => 1 / 2) (run (fun _ => 1 / 2) init [⟨1, 9 / 10, 1, 0, 1⟩])
      ⟨1, 9 / 10, 1, 0, 1⟩).1.skipCycle = true ∧
    (process (fun _ => 1 / 2) (run (fun _ => 1 / 2) init [⟨1, 9 / 10, 1, 0, 1⟩])
      ⟨1, 9 / 10, 1, 0, 1⟩).2.squareWave = 0 := by
  have h := gate_one_scenario (fun _ => 1 / 2) [⟨1, 9 / 10, 1, 0, 1⟩] ⟨1, 9 / 10, 1, 0, 1⟩
    (by intro n; norm_num)
    (by
      intro b hb
      rw [List.mem_singleton.mp hb]
      norm_num)
    (by norm_num)
  have c1 := (update_unit (fun _ => 1 / 2) init ⟨1, 9 / 10, 1, 0, 1⟩ rfl rfl rfl).1
  refine ⟨(h.2.1 ?_).1, (h.2.1 ?_).2⟩ <;>
  · show 1 ≤ crossings (fun _ => 1 / 2) init [⟨1, 9 / 10, 1, 0, 1⟩, ⟨1, 9 / 10, 1, 0, 1⟩]
    simp only [crossings, c1, if_true]
    omega

/-- C7 (counterexample). From the constructed state, the first call with `gate = 1`,
`bleed = 0`, `frequency = 1`, `sampleTime = 1/4`, `pulseWidth = 1/2` and draws 1/2 does
not cross the boundary, leaves `skipCycle = false` and writes voltage 10, not 0. -/
theorem gate_one_scenario_counterexample :
    (Inputs.mk 1 (1 / 2) 1 0 (1 / 4)).gate = 1 ∧ (Inputs.mk 1 (1 / 2) 1 0 (1 / 4)).bleed = 0 ∧
    (0 : ℚ) ≤ (Inputs.mk 1 (1 / 2) 1 0 (1 / 4)).sampleTime ∧
    (process (fun _ => 1 / 2) init (Inputs.mk 1 (1 / 2) 1 0 (1 / 4))).1.skipCycle = false ∧
    (process (fun _ => 1 / 2) init (Inputs.mk 1 (1 / 2) 1 0 (1 / 4))).2.squareWave = 10 ∧
    (process (fun _ => 1 / 2) init (Inputs.mk 1 (1 / 2) 1 0 (1 / 4))).2.squareWave ≠ 0 := by
  have e : phaseSum init (Inputs.mk 1 (1 / 2) 1 0 (1 / 4)) = 1 / 4 := by
    show fl ((0 : ℚ) + fl (1 * (1 / 4))) = 1 / 4
    rw [one_mul, fl_quarter, zero_add, fl_quarter]
  have hc : ¬ crosses init (Inputs.mk 1 (1 / 2) 1 0 (1 / 4)) := by
    unfold crosses
    rw [e]
    norm_num
  have hu := update_of_not_crosses (fun _ => 1 / 2) init _ hc
  have hv : (process (fun _ => 1 / 2) init (Inputs.mk 1 (1 / 2) 1 0 (1 / 4))).2.squareWave
      = 10 := by
    rw [process_snd, hu, emit_squareWave_of_not_skip _ _ rfl]
    show (if phaseSum init (Inputs.mk 1 (1 / 2) 1 0 (1 / 4)) < 1 / 2 then (10 : ℚ) else 0) = 10
    rw [e]
    norm_num
  refine ⟨rfl, rfl, by norm_num, ?_, hv, ?_⟩
  · rw [process_fst, hu]
    rfl
  · rw [hv]
    norm_num

/-! ## The hold counter -/

theorem castInt_of_nonneg_lt (x : ℚ) (h0 : 0 ≤ x) (h1 : x < 2 ^ 31) :
    castInt x = Int.floor x := by
  have hf : fitsInt x := ⟨by linarith, h1⟩
  unfold castInt
  rw [if_pos hf, if_pos h0]

/-- The binary32 product `r2 * bleed * 10` of line 59 stays in `[0, 10)` for a binary32
draw `r2` of `[0, 1)` and `0 < bleed ≤ 1`. -/
theorem hold_value_range (r bleed : ℚ) (hr : isFloat r ∧ 0 ≤ r ∧ r < 1)
    (hb : 0 < bleed ∧ bleed ≤ 1) :
    0 ≤ fl (fl (r * bleed) * 10) ∧ fl (fl (r * bleed) * 10) < 10 := by
  obtain ⟨rf, r0, r1⟩ := hr
  obtain ⟨b0, b1⟩ := hb
  have hx0 : 0 ≤ r * bleed := mul_nonneg r0 (le_of_lt b0)
  have hx1 : r * bleed ≤ r := by nlinarith
  have m0 : 0 ≤ fl (r * bleed) := fl_nonneg _ hx0
  have m1 : fl (r * bleed) ≤ 1 - 1 / 2 ^ 24 :=
    le_trans (fl_le_float _ r hx0 hx1 rf) (isFloat_lt_one r rf r1)
  have y0 : 0 ≤ fl (r * bleed) * 10 := by linarith
  refine ⟨fl_nonneg _ y0, ?_⟩
  by_cases h8 : fl (r * bleed) * 10 < 8
  · have he : expo (fl (r * bleed) * 10) - 23 ≤ 3 := by
      have := expo_le_of_abs_lt (fl (r * bleed) * 10) 2 (by decide)
        (by rw [abs_of_nonneg y0]; norm_num; linarith)
      omega
    have h := fl_le_grid (fl (r * bleed) * 10) 1 3 he (by norm_num; linarith)
    norm_num at h
    linarith
  · have h8' : 8 ≤ fl (r * bleed) * 10 := not_lt.mp h8
    have hfl := fl_of_binade (fl (r * bleed) * 10) 3 (by decide)
      (by rw [abs_of_nonneg y0]; norm_num; linarith)
      (by rw [abs_of_nonneg y0]; norm_num at m1 ⊢; linarith)
    have hp : (2 : ℚ) ^ ((3 : Int) - 23) = 1 / 2 ^ 20 := by norm_num [zpow_neg]
    rw [hp] at hfl
    have hq : fl (r * bleed) * 10 / (1 / 2 ^ 20) < ((10485759 : Int) : ℚ) + 1 / 2 := by
      rw [div_lt_iff₀ (by positivity)]
      norm_num at m1 ⊢
      linarith
    have hn := roundEven_le_of_lt_half _ _ hq
    have hn' : ((roundEven (fl (r * bleed) * 10 / (1 / 2 ^ 20)) : Int) : ℚ) ≤ 10485759 := by
      exact_mod_cast hn
    rw [hfl]
    have : ((roundEven (fl (r * bleed) * 10 / (1 / 2 ^ 20)) : Int) : ℚ) * (1 / 2 ^ 20)
        ≤ 10485759 * (1 / 2 ^ 20) := mul_le_mul_of_nonneg_right hn' (by positivity)
    norm_num at this ⊢
    linarith

theorem castInt_draw_range (r bleed : ℚ) (hr : isFloat r ∧ 0 ≤ r ∧ r < 1)
    (hb : 0 < bleed ∧ bleed ≤ 1) :
    castInt (fl (fl (r * bleed) * 10)) = Int.floor (fl (fl (r * bleed) * 10)) ∧
    0 ≤ castInt (fl (fl (r * bleed) * 10)) ∧ castInt (fl (fl (r * bleed) * 10)) ≤ 9 := by
  obtain ⟨h0, h10⟩ := hold_value_range r bleed hr hb
  rw [castInt_of_nonneg_lt _ h0 (by norm_num; linarith)]
  refine ⟨rfl, Int.floor_nonneg.mpr h0, ?_⟩
  have h : Int.floor (fl (fl (r * bleed) * 10)) < 10 := by
    rw [Int.floor_lt]
    exact_mod_cast h10
  omega

theorem update_counter_reroll (dis : Nat → ℚ) (s : State) (a : Inputs)
    (hc : crosses s a) (hk : ¬ 0 < s.bleedCounter) :
    (update dis s a).bleedCounter =
      if ¬ dis s.gen < a.gate ∧ 0 < a.bleed
      then castInt (fl (fl (dis (s.gen + 1) * a.bleed) * 10)) else s.bleedCounter := by
  rw [update_reroll dis s a hc hk]
  by_cases h1 : dis s.gen < a.gate <;> by_cases h2 : 0 < a.bleed <;> simp [h1, h2]

theorem update_counter_range (dis : Nat → ℚ) (s : State) (a : Inputs)
    (hd : isFloat (dis (s.gen + 1)) ∧ 0 ≤ dis (s.gen + 1) ∧ dis (s.gen + 1) < 1)
    (hb : a.bleed ≤ 1)
    (hs : 0 ≤ s.bleedCounter ∧ s.bleedCounter ≤ 9) :
    0 ≤ (update dis s a).bleedCounter ∧ (update dis s a).bleedCounter ≤ 9 := by
  by_cases hc : crosses s a
  · by_cases hk : 0 < s.bleedCounter
    · rw [update_hold dis s a hc hk]
      simp only
      omega
    · rw [update_counter_reroll dis s a hc hk]
      split_ifs with h
      · exact (castInt_draw_range _ _ hd ⟨h.2, hb⟩).2
      · exact hs
  · rw [update_of_not_crosses dis s a hc]
    exact hs

theorem run_counter_range (dis : Nat → ℚ) (s : State) (ins : List Inputs)
    (hdis : ∀ n, isFloat (dis n) ∧ 0 ≤ dis n ∧ dis n < 1) (hins : ∀ b ∈ ins, b.bleed ≤ 1)
    (hs : 0 ≤ s.bleedCounter ∧ s.bleedCounter ≤ 9) :
    0 ≤ (run dis s ins).bleedCounter ∧ (run dis s ins).bleedCounter ≤ 9 := by
  induction ins generalizing s with
  | nil => exact hs
  | cons a rest ih =>
    simp only [run]
    apply ih
    · intro b hb
      exact hins b (List.mem_cons_of_mem a hb)
    · exact update_counter_range dis s a (hdis _) (hins a (List.mem_cons_self a rest)) hs

/-- C9 (amended). Range of the hold counter: starting from the constructed state, in a
sequence of calls with every draw a binary32 value of `[0, 1)` and every `bleed ≤ 1`, the
counter is between 0 and 9 before and after each call `a` (made after the calls `pre`).
A call that does not cross the boundary leaves it unchanged; a crossing call decrements
it when it is positive; a crossing call that finds it at 0 sets it to the floor of the
binary32 product `fl (fl (r2 * bleed) * 10)`, `r2` being the second draw, when the
re-roll leaves `skipCycle = false` and `bleed > 0`, and leaves it unchanged otherwise. -/
theorem hold_counter_range (dis : Nat → ℚ) (pre : List Inputs) (a : Inputs)
    (hdis : ∀ n, isFloat (dis n) ∧ 0 ≤ dis n ∧ dis n < 1)
    (hpre : ∀ b ∈ pre, b.bleed ≤ 1) (ha : a.bleed ≤ 1) :
    (0 ≤ (run dis init pre).bleedCounter ∧ (run dis init pre).bleedCounter ≤ 9) ∧
    (0 ≤ (process dis (run dis init pre) a).1.bleedCounter ∧
      (process dis (run dis init pre) a).1.bleedCounter ≤ 9) ∧
    (¬ crosses (run dis init pre) a →
      (process dis (run dis init pre) a).1.bleedCounter = (run dis init pre).bleedCounter) ∧
    (crosses (run dis init pre) a → 0 < (run dis init pre).bleedCounter →
      (process dis (run dis init pre) a).1.bleedCounter =
        (run dis init pre).bleedCounter - 1) ∧
    (crosses (run dis init pre) a → (run dis init pre).bleedCounter = 0 →
      (process dis (run dis init pre) a).1.bleedCounter =
        if (process dis (run dis init pre) a).1.skipCycle = false ∧ 0 < a.bleed
        then Int.floor (fl (fl (dis ((run dis init pre).gen + 1) * a.bleed) * 10))
        else (run dis init pre).bleedCounter) := by
  have h0 : 0 ≤ (run dis init pre).bleedCounter ∧ (run dis init pre).bleedCounter ≤ 9 :=
    run_counter_range dis init pre hdis hpre ⟨le_refl _, by decide⟩
  refine ⟨h0, update_counter_range dis _ a (hdis _) ha h0, ?_, ?_, ?_⟩
  · intro hc
    rw [process_fst, update_of_not_crosses dis _ a hc]
  · intro hc hk
    rw [process_fst, update_hold dis _ a hc hk]
  · intro hc hk
    have hk0 : ¬ 0 < (run dis init pre).bleedCounter := by rw [hk]; exact lt_irrefl 0
    rw [process_fst, update_reroll dis _ a hc hk0]
    by_cases h1 : dis (run dis init pre).gen < a.gate
    · simp [h1]
    · by_cases h2 : 0 < a.bleed
      · have hfl := (castInt_draw_range _ _ (hdis ((run dis init pre).gen + 1)) ⟨h2, ha⟩).1
        simp [h1, h2, hfl]
      · simp [h1, h2]

/-- Witness for C9 (amended): from the constructed state a crossing call with `gate = 0`,
`bleed = 1` and draws 1/2 sets the counter to `floor (fl (fl (1/2 * 1) * 10)) = 5`. -/
theorem hold_counter_range_witness :
    (process (fun _ => 1 / 2) (run (fun _ => 1 / 2) init []) ⟨1, 1 / 2, 0, 1, 1⟩).1.bleedCounter
      = 5 := by
  have h := hold_counter_range (fun _ => 1 / 2) [] ⟨1, 1 / 2, 0, 1, 1⟩
    (by intro n; exact ⟨fl_half, by norm_num, by norm_num⟩)
    (by intro b hb; cases hb) (by norm_num)
  have hc : crosses (run (fun _ => 1 / 2) init []) ⟨1, 1 / 2, 0, 1, 1⟩ :=
    (update_unit (fun _ => 1 / 2) init ⟨1, 1 / 2, 0, 1, 1⟩ rfl rfl rfl).1
  have h5 := h.2.2.2.2 hc rfl
  have hs : (process (fun _ => 1 / 2) (run (fun _ => 1 / 2) init [])
      ⟨1, 1 / 2, 0, 1, 1⟩).1.skipCycle = false := by
    have hk0 : ¬ 0 < (run (fun _ => 1 / 2) init []).bleedCounter := by decide
    rw [process_fst, update_reroll _ _ _ hc hk0]
    norm_num
  have hprod : fl (fl ((1 : ℚ) / 2 * 1) * 10) = 5 := by
    rw [mul_one, fl_half, show (1 : ℚ) / 2 * 10 = 5 by norm_num, fl_five]
  rw [h5, if_pos ⟨hs, by norm_num⟩]
  show Int.floor (fl (fl ((1 : ℚ) / 2 * 1) * 10)) = 5
  rw [hprod]
  norm_num

theorem fl_seven_tenths : fl (11744051 / 16777216) = 11744051 / 16777216 := by
  have h := fl_dyadic 11744051 24 (by decide) (by decide)
  norm_num at h ⊢
  exact h

theorem fl_seven_tenths_times_ten : fl (58720255 / 8388608) = 7 := by
  rw [fl_of_binade _ 2 (by decide) (by rw [abs_of_nonneg (by norm_num)]; norm_num)
    (by rw [abs_of_nonneg (by norm_num)]; norm_num)]
  have e : (58720255 / 8388608 : ℚ) / 2 ^ ((2 : Int) - 23) = 58720255 / 4 := by
    norm_num [zpow_neg]
  rw [e, roundEven_eq_of_near _ 14680064 (by norm_num) (by norm_num)]
  norm_num [zpow_neg]

/-- C9 (counterexample). With the binary32 draw `11744051 * 2^-24` (the value nearest
7/10), `bleed = 1` and `gate = 0`, the first crossing from the constructed state keeps the
cycle and arms the counter with 7: the rounded product is exactly 7, while the floor of
the exact product `r2 * bleed * 10` is 6. -/
theorem hold_counter_counterexample :
    isFloat (11744051 / 16777216) ∧
    (0 : ℚ) ≤ 11744051 / 16777216 ∧ (11744051 / 16777216 : ℚ) < 1 ∧
    (Inputs.mk 1 (1 / 2) 0 1 1).bleed ≤ 1 ∧
    crosses init (Inputs.mk 1 (1 / 2) 0 1 1) ∧
    (process (fun _ => 11744051 / 16777216) init
      (Inputs.mk 1 (1 / 2) 0 1 1)).1.skipCycle = false ∧
    (process (fun _ => 11744051 / 16777216) init
      (Inputs.mk 1 (1 / 2) 0 1 1)).1.bleedCounter = 7 ∧
    Int.floor ((11744051 / 16777216 : ℚ) * 1 * 10) = 6 := by
  have hc := (update_unit (fun _ => 11744051 / 16777216) init (Inputs.mk 1 (1 / 2) 0 1 1)
    rfl rfl rfl).1
  have hk0 : ¬ 0 < init.bleedCounter := by decide
  have hprod : fl (fl ((11744051 : ℚ) / 16777216 * 1) * 10) = 7 := by
    rw [mul_one, fl_seven_tenths,
      show (11744051 : ℚ) / 16777216 * 10 = 58720255 / 8388608 by norm_num,
      fl_seven_tenths_times_ten]
  refine ⟨fl_seven_tenths, by norm_num, by norm_num, by norm_num, hc, ?_, ?_, ?_⟩
  · rw [process_fst, update_reroll _ _ _ hc hk0]
    norm_num
  · rw [process_fst, update_counter_reroll _ _ _ hc hk0]
    rw [if_pos (by norm_num)]
    show castInt (fl (fl ((11744051 : ℚ) / 16777216 * 1) * 10)) = 7
    rw [hprod, castInt_of_nonneg_lt _ (by norm_num) (by norm_num)]
    norm_num
  · rw [Int.floor_eq_iff]
    norm_num

theorem update_reroll_draws (dis : Nat → ℚ) (s : State) (a : Inputs)
    (hc : crosses s a) (hk : ¬ 0 < s.bleedCounter) :
    (update dis s a).skipCycle = decide (dis s.gen < a.gate) ∧
    s.gen + 1 ≤ (update dis s a).gen := by
  rw [update_reroll dis s a hc hk]
  split_ifs
  · exact ⟨rfl, Nat.le_succ _⟩
  · exact ⟨rfl, le_refl _⟩

/-- C3. Hold countdown: let the counter be `k > 0` in state `s`, and let `a` be any call
made after the calls `pre` (inputs and draws arbitrary). If `a` does not cross the
boundary it leaves the counter, the flag and the draw cursor unchanged. If `a` crosses
and fewer than `k` crossings came before it, it sets `skipCycle = false`, decrements the
counter by exactly 1 (so the counter is `k` minus the number of crossings so far, and 0
after the `k`-th), and no draw has been taken since `s`. If `a` crosses after exactly `k`
earlier crossings, the counter it finds is 0, no draw has been taken before it, and it
re-rolls: the flag becomes `dis gen < gate` and the cursor advances. -/
theorem hold_countdown (dis : Nat → ℚ) (s : State) (k : Nat) (pre : List Inputs)
    (a : Inputs) (hk : s.bleedCounter = (k : Int)) (hpos : 0 < k) :
    (¬ crosses (run dis s pre) a →
      (process dis (run dis s pre) a).1.bleedCounter = (run dis s pre).bleedCounter ∧
      (process dis (run dis s pre) a).1.skipCycle = (run dis s pre).skipCycle ∧
      (process dis (run dis s pre) a).1.gen = (run dis s pre).gen) ∧
    (crosses (run dis s pre) a → crossings dis s pre < k →
      (process dis (run dis s pre) a).1.skipCycle = false ∧
      (process dis (run dis s pre) a).1.bleedCounter = (run dis s pre).bleedCounter - 1 ∧
      (process dis (run dis s pre) a).1.bleedCounter =
        (k : Int) - ((crossings dis s pre : Int) + 1) ∧
      (process dis (run dis s pre) a).1.gen = s.gen) ∧
    (crosses (run dis s pre) a → crossings dis s pre = k →
      (run dis s pre).bleedCounter = 0 ∧
      (run dis s pre).gen = s.gen ∧
      (process dis (run dis s pre) a).1.skipCycle = decide (dis s.gen < a.gate) ∧
      s.gen + 1 ≤ (process dis (run dis s pre) a).1.gen) := by
  have _ := hpos
  refine ⟨?_, ?_, ?_⟩
  · intro hc
    rw [process_fst, update_of_not_crosses dis _ a hc]
    exact ⟨rfl, rfl, rfl⟩
  · intro hc hlt
    obtain ⟨e1, e2⟩ := run_hold dis k s pre hk (le_of_lt hlt)
    have hp : 0 < (run dis s pre).bleedCounter := by rw [e1]; omega
    rw [process_fst, update_hold dis _ a hc hp]
    refine ⟨rfl, rfl, ?_, e2⟩
    simp only
    rw [e1]
    omega
  · intro hc heq
    obtain ⟨e1, e2⟩ := run_hold dis k s pre hk (le_of_eq heq)
    have hz : (run dis s pre).bleedCounter = 0 := by rw [e1, heq]; omega
    have hp : ¬ 0 < (run dis s pre).bleedCounter := by rw [hz]; exact lt_irrefl 0
    have hr := update_reroll_draws dis _ a hc hp
    rw [e2] at hr
    exact ⟨hz, e2, hr.1, hr.2⟩

/-- Witness for C3: counter 1; the first crossing call clears the flag and takes no
draw, the second crossing call re-rolls with the draw 1/4 against `gate = 1/2`. -/
theorem hold_countdown_witness :
    (process (fun _ => 1 / 4) (run (fun _ => 1 / 4) ⟨0, true, 1, 0⟩ [])
      ⟨1, 1 / 2, 1 / 2, 0, 1⟩).1.skipCycle = false ∧
    (process (fun _ => 1 / 4) (run (fun _ => 1 / 4) ⟨0, true, 1, 0⟩ [⟨1, 1 / 2, 1 / 2, 0, 1⟩])
      ⟨1, 1 / 2, 1 / 2, 0, 1⟩).1.skipCycle = true := by
  have h1 := hold_countdown (fun _ => 1 / 4) ⟨0, true, 1, 0⟩ 1 [] ⟨1, 1 / 2, 1 / 2, 0, 1⟩ rfl
    (by decide)
  have h2 := hold_countdown (fun _ => 1 / 4) ⟨0, true, 1, 0⟩ 1 [⟨1, 1 / 2, 1 / 2, 0, 1⟩]
    ⟨1, 1 / 2, 1 / 2, 0, 1⟩ rfl (by decide)
  have u1 := update_unit (fun _ => 1 / 4) ⟨0, true, 1, 0⟩ ⟨1, 1 / 2, 1 / 2, 0, 1⟩ rfl rfl rfl
  have u2 := update_unit (fun _ => 1 / 4)
    (run (fun _ => 1 / 4) ⟨0, true, 1, 0⟩ [⟨1, 1 / 2, 1 / 2, 0, 1⟩])
    ⟨1, 1 / 2, 1 / 2, 0, 1⟩ u1.2 rfl rfl
  have c1 : crossings (fun _ => 1 / 4) ⟨0, true, 1, 0⟩ [⟨1, 1 / 2, 1 / 2, 0, 1⟩] = 1 := by
    unfold crossings
    rw [if_pos u1.1]
    rfl
  refine ⟨(h1.2.1 u1.1 (by decide)).1, ?_⟩
  rw [(h2.2.2 u2.1 c1).2.2.1]
  norm_num

/-- C6 (amended). Hold inertia: let a call `a` cross the boundary from a state whose
counter is 0. If the re-roll drops the cycle (`dis gen < gate`), then `skipCycle = true`,
the counter stays 0 and one draw is taken, whatever `bleed` is; the next boundary
crossing re-rolls with the next draw. If the re-roll keeps the cycle and `bleed > 0`,
then `skipCycle = false` and a second draw `r2` is taken; when `r2 ≥ 0` and the binary32
product `fl (fl (r2 * bleed) * 10)` is below `2^31` (so that it fits an `int`), the
counter becomes the floor of that product, and each following crossing, while fewer
crossings than that count came before it, sets `skipCycle = false`, decrements the
counter and takes no draw. -/
theorem hold_inertia (dis : Nat → ℚ) (s : State) (a : Inputs)
    (hk : s.bleedCounter = 0) (hc : crosses s a) :
    (dis s.gen < a.gate →
      (process dis s a).1.skipCycle = true ∧
      (process dis s a).1.bleedCounter = 0 ∧
      (process dis s a).1.gen = s.gen + 1 ∧
      ∀ (rest : List Inputs) (b : Inputs),
        crossings dis (process dis s a).1 rest = 0 →
        crosses (run dis (process dis s a).1 rest) b →
        (process dis (run dis (process dis s a).1 rest) b).1.skipCycle =
          decide (dis (s.gen + 1) < b.gate) ∧
        s.gen + 2 ≤ (process dis (run dis (process dis s a).1 rest) b).1.gen) ∧
    (¬ dis s.gen < a.gate → 0 < a.bleed → 0 ≤ dis (s.gen + 1) →
      fl (fl (dis (s.gen + 1) * a.bleed) * 10) < 2 ^ 31 →
      (process dis s a).1.skipCycle = false ∧
      (process dis s a).1.bleedCounter =
        Int.floor (fl (fl (dis (s.gen + 1) * a.bleed) * 10)) ∧
      (process dis s a).1.gen = s.gen + 2 ∧
      ∀ (rest : List Inputs) (b : Inputs),
        (crossings dis (process dis s a).1 rest : Int) < (process dis s a).1.bleedCounter →
        crosses (run dis (process dis s a).1 rest) b →
        (process dis (run dis (process dis s a).1 rest) b).1.skipCycle = false ∧
        (process dis (run dis (process dis s a).1 rest) b).1.bleedCounter =
          (run dis (process dis s a).1 rest).bleedCounter - 1 ∧
        (process dis (run dis (process dis s a).1 rest) b).1.gen = s.gen + 2) := by
  have hk0 : ¬ 0 < s.bleedCounter := by rw [hk]; exact lt_irrefl 0
  have hu := update_reroll dis s a hc hk0
  constructor
  · intro hlt
    have e1 : (process dis s a).1.skipCycle = true := by
      rw [process_fst, hu]
      simp [hlt]
    have e2 : (process dis s a).1.bleedCounter = 0 := by
      rw [process_fst, hu]
      simp [hlt, hk]
    have e3 : (process dis s a).1.gen = s.gen + 1 := by
      rw [process_fst, hu]
      simp [hlt]
    refine ⟨e1, e2, e3, ?_⟩
    intro rest b hz hcb
    obtain ⟨_, r2, r3⟩ := run_no_crossings dis _ rest hz
    have hp : ¬ 0 < (run dis (process dis s a).1 rest).bleedCounter := by
      rw [r2, e2]
      exact lt_irrefl 0
    have hr := update_reroll_draws dis _ b hcb hp
    rw [r3, e3] at hr
    exact hr
  · intro hge hbl hr0 hfit
    have hprod0 : 0 ≤ fl (fl (dis (s.gen + 1) * a.bleed) * 10) := by
      apply fl_nonneg
      have := fl_nonneg _ (mul_nonneg hr0 (le_of_lt hbl))
      linarith
    have e1 : (process dis s a).1.skipCycle = false := by
      rw [process_fst, hu]
      simp [hge, hbl]
    have e2 : (process dis s a).1.bleedCounter =
        Int.floor (fl (fl (dis (s.gen + 1) * a.bleed) * 10)) := by
      rw [process_fst, hu, ← castInt_of_nonneg_lt _ hprod0 hfit]
      simp [hge, hbl]
    have e3 : (process dis s a).1.gen = s.gen + 2 := by
      rw [process_fst, hu]
      simp [hge, hbl]
    refine ⟨e1, e2, e3, ?_⟩
    intro rest b hlt hcb
    have hnn : 0 ≤ (process dis s a).1.bleedCounter := by omega
    obtain ⟨r1, r2⟩ := run_hold dis (process dis s a).1.bleedCounter.toNat
      (process dis s a).1 rest (Int.toNat_of_nonneg hnn).symm (by omega)
    have hp : 0 < (run dis (process dis s a).1 rest).bleedCounter := by
      rw [r1]
      omega
    rw [process_fst dis (run dis (process dis s a).1 rest) b, update_hold dis _ b hcb hp]
    refine ⟨rfl, rfl, ?_⟩
    simp only
    rw [r2, e3]

/-- Witness for C6 (amended): a kept cycle with `bleed = 1` and second draw 1/2 arms a
hold of 5, and the next crossing is forced to `skipCycle = false` although `gate = 1`. -/
theorem hold_inertia_witness :
    (process (fun n => if n = 0 then 3 / 4 else 1 / 2) init
      ⟨1, 1 / 2, 1 / 2, 1, 1⟩).1.bleedCounter = 5 ∧
    (process (fun n => if n = 0 then 3 / 4 else 1 / 2)
      (run (fun n => if n = 0 then 3 / 4 else 1 / 2)
        (process (fun n => if n = 0 then 3 / 4 else 1 / 2) init ⟨1, 1 / 2, 1 / 2, 1, 1⟩).1 [])
      ⟨1, 1 / 2, 1, 1, 1⟩).1.skipCycle = false := by
  have u1 := update_unit (fun n => if n = 0 then 3 / 4 else 1 / 2) init
    ⟨1, 1 / 2, 1 / 2, 1, 1⟩ rfl rfl rfl
  have hprod : fl (fl ((1 : ℚ) / 2 * 1) * 10) = 5 := by
    rw [mul_one, fl_half, show (1 : ℚ) / 2 * 10 = 5 by norm_num, fl_five]
  have h := (hold_inertia (fun n => if n = 0 then 3 / 4 else 1 / 2) init
    ⟨1, 1 / 2, 1 / 2, 1, 1⟩ rfl u1.1).2
    (by
      show ¬ ((3 : ℚ) / 4 < 1 / 2)
      norm_num)
    (by norm_num)
    (by
      show (0 : ℚ) ≤ 1 / 2
      norm_num)
    (by
      show fl (fl ((1 : ℚ) / 2 * 1) * 10) < 2 ^ 31
      rw [hprod]
      norm_num)
  have hb : (process (fun n => if n = 0 then 3 / 4 else 1 / 2) init
      ⟨1, 1 / 2, 1 / 2, 1, 1⟩).1.bleedCounter = 5 := by
    rw [h.2.1]
    show Int.floor (fl (fl ((1 : ℚ) / 2 * 1) * 10)) = 5
    rw [hprod]
    norm_num
  refine ⟨hb, (h.2.2.2 [] ⟨1, 1 / 2, 1, 1, 1⟩ ?_ ?_).1⟩
  · rw [hb]
    show ((0 : Nat) : Int) < 5
    decide
  · exact (update_unit (fun n => if n = 0 then 3 / 4 else 1 / 2) _ ⟨1, 1 / 2, 1, 1, 1⟩
      u1.2 rfl rfl).1

/-- C6 (counterexample). From the constructed state with `gate = 1/2`, `bleed = 1` and
draws `0, 3/4, 3/4, ...`: the first crossing re-rolls to `skipCycle = true` (a dropped
cycle, `bleed > 0`) and leaves the counter at 0; the following crossing re-rolls again
(the cursor moves from 1 to 3) and sets `skipCycle = false`. -/
theorem drop_inertia_counterexample :
    crosses init (Inputs.mk 1 (1 / 2) (1 / 2) 1 1) ∧
    (0 : ℚ) < (Inputs.mk 1 (1 / 2) (1 / 2) 1 1).bleed ∧
    (process (fun n => if n = 0 then 0 else 3 / 4) init
      (Inputs.mk 1 (1 / 2) (1 / 2) 1 1)).1.skipCycle = true ∧
    (process (fun n => if n = 0 then 0 else 3 / 4) init
      (Inputs.mk 1 (1 / 2) (1 / 2) 1 1)).1.bleedCounter = 0 ∧
    (process (fun n => if n = 0 then 0 else 3 / 4) init
      (Inputs.mk 1 (1 / 2) (1 / 2) 1 1)).1.gen = 1 ∧
    crosses (process (fun n => if n = 0 then 0 else 3 / 4) init
      (Inputs.mk 1 (1 / 2) (1 / 2) 1 1)).1 (Inputs.mk 1 (1 / 2) (1 / 2) 1 1) ∧
    (run (fun n => if n = 0 then 0 else 3 / 4) init
      [Inputs.mk 1 (1 / 2) (1 / 2) 1 1, Inputs.mk 1 (1 / 2) (1 / 2) 1 1]).skipCycle = false ∧
    (run (fun n => if n = 0 then 0 else 3 / 4) init
      [Inputs.mk 1 (1 / 2) (1 / 2) 1 1, Inputs.mk 1 (1 / 2) (1 / 2) 1 1]).gen = 3 := by
  have u1 := update_unit (fun n => if n = 0 then 0 else 3 / 4) init
    (Inputs.mk 1 (1 / 2) (1 / 2) 1 1) rfl rfl rfl
  have hk0 : ¬ 0 < init.bleedCounter := by decide
  have hu := update_reroll (fun n => if n = 0 then 0 else 3 / 4) init
    (Inputs.mk 1 (1 / 2) (1 / 2) 1 1) u1.1 hk0
  have e1 : (process (fun n => if n = 0 then 0 else 3 / 4) init
      (Inputs.mk 1 (1 / 2) (1 / 2) 1 1)).1.skipCycle = true := by
    rw [process_fst, hu]
    norm_num [init]
  have e2 : (process (fun n => if n = 0 then 0 else 3 / 4) init
      (Inputs.mk 1 (1 / 2) (1 / 2) 1 1)).1.bleedCounter = 0 := by
    rw [process_fst, hu]
    norm_num [init]
  have e3 : (process (fun n => if n = 0 then 0 else 3 / 4) init
      (Inputs.mk 1 (1 / 2) (1 / 2) 1 1)).1.gen = 1 := by
    rw [process_fst, hu]
    norm_num [init]
  have u2 := update_unit (fun n => if n = 0 then 0 else 3 / 4)
    (process (fun n => if n = 0 then 0 else 3 / 4) init (Inputs.mk 1 (1 / 2) (1 / 2) 1 1)).1
    (Inputs.mk 1 (1 / 2) (1 / 2) 1 1) u1.2 rfl rfl
  have hk1 : ¬ 0 < (process (fun n => if n = 0 then 0 else 3 / 4) init
      (Inputs.mk 1 (1 / 2) (1 / 2) 1 1)).1.bleedCounter := by
    rw [e2]
    decide
  have hu2 := update_reroll (fun n => if n = 0 then 0 else 3 / 4) _
    (Inputs.mk 1 (1 / 2) (1 / 2) 1 1) u2.1 hk1
  refine ⟨u1.1, by norm_num, e1, e2, e3, u2.1, ?_, ?_⟩
  · show (update (fun n => if n = 0 then 0 else 3 / 4)
      (process (fun n => if n = 0 then 0 else 3 / 4) init
        (Inputs.mk 1 (1 / 2) (1 / 2) 1 1)).1 (Inputs.mk 1 (1 / 2) (1 / 2) 1 1)).skipCycle = false
    rw [hu2, e3]
    norm_num
  · show (update (fun n => if n = 0 then 0 else 3 / 4)
      (process (fun n => if n = 0 then 0 else 3 / 4) init
        (Inputs.mk 1 (1 / 2) (1 / 2) 1 1)).1 (Inputs.mk 1 (1 / 2) (1 / 2) 1 1)).gen = 3
    rw [hu2, e3]
    norm_num

/-! ## Scenario: 2 Hz at 1000 samples per second -/

theorem roundEven_nat_div (N D : Nat) (hD : 0 < D) :
    roundEven ((N : ℚ) / D) =
      ((if 2 * (N % D) < D then N / D
        else if D < 2 * (N % D) then N / D + 1
        else if (N / D) % 2 = 0 then N / D else N / D + 1 : Nat) : Int) := by
  obtain ⟨q, hq⟩ : ∃ q, q = N / D := ⟨_, rfl⟩
  obtain ⟨r, hr⟩ : ∃ r, r = N % D := ⟨_, rfl⟩
  have hrD : r < D := by rw [hr]; exact Nat.mod_lt N hD
  have hNat : N = D * q + r := by rw [hq, hr]; exact (Nat.div_add_mod N D).symm
  rw [← hq, ← hr]
  have hDq : (0 : ℚ) < D := by exact_mod_cast hD
  have hN : (N : ℚ) = D * q + r := by exact_mod_cast hNat
  have hrq : (r : ℚ) < D := by exact_mod_cast hrD
  have hr0 : (0 : ℚ) ≤ (r : ℚ) := Nat.cast_nonneg _
  have hquot : (N : ℚ) / D = q + (r : ℚ) / D := by
    rw [hN]
    field_simp
    ring
  have hfloor : Int.floor ((N : ℚ) / D) = (q : Int) := by
    rw [Int.floor_eq_iff, hquot, Int.cast_natCast]
    constructor
    · have : 0 ≤ (r : ℚ) / D := div_nonneg hr0 (le_of_lt hDq)
      linarith
    · have : (r : ℚ) / D < 1 := (div_lt_one hDq).mpr hrq
      linarith
  have hfrac : (N : ℚ) / D - ((q : Int) : ℚ) = (r : ℚ) / D := by
    rw [hquot, Int.cast_natCast]
    ring
  have hlt : (r : ℚ) / D < 1 / 2 ↔ 2 * r < D := by
    rw [div_lt_iff₀ hDq]
    constructor
    · intro h
      have h2 : (((2 * r : Nat)) : ℚ) < (D : ℚ) := by
        rw [Nat.cast_mul, Nat.cast_ofNat]
        linarith
      exact_mod_cast h2
    · intro h
      have h2 : (((2 * r : Nat)) : ℚ) < (D : ℚ) := by exact_mod_cast h
      rw [Nat.cast_mul, Nat.cast_ofNat] at h2
      linarith
  have hgt : 1 / 2 < (r : ℚ) / D ↔ D < 2 * r := by
    rw [lt_div_iff₀ hDq]
    constructor
    · intro h
      have h2 : (D : ℚ) < (((2 * r : Nat)) : ℚ) := by
        rw [Nat.cast_mul, Nat.cast_ofNat]
        linarith
      exact_mod_cast h2
    · intro h
      have h2 : (D : ℚ) < (((2 * r : Nat)) : ℚ) := by exact_mod_cast h
      rw [Nat.cast_mul, Nat.cast_ofNat] at h2
      linarith
  unfold roundEven
  rw [hfloor, hfrac]
  by_cases c1 : 2 * r < D
  · rw [if_pos (hlt.mpr c1), if_pos c1]
  · rw [if_neg (fun h => c1 (hlt.mp h)), if_neg c1]
    by_cases c2 : D < 2 * r
    · rw [if_pos (hgt.mpr c2), if_pos c2]
      omega
    · rw [if_neg (fun h => c2 (hgt.mp h)), if_neg c2]
      by_cases c3 : q % 2 = 0
      · have c3' : (q : Int) % 2 = 0 := by omega
        rw [if_pos c3', if_pos c3]
      · have c3' : ¬ (q : Int) % 2 = 0 := by omega
        rw [if_neg c3', if_neg c3]
        omega

theorem shiftOf_spec (N : Nat) (fuel sh0 : Nat) (h0 : sh0 = 0 ∨ 2 ^ (23 + sh0) ≤ N)
    (hN : N < 2 ^ (24 + sh0 + fuel)) :
    N < 2 ^ (24 + shiftOf N fuel sh0) ∧
    (shiftOf N fuel sh0 = 0 ∨ 2 ^ (23 + shiftOf N fuel sh0) ≤ N) := by
  induction fuel generalizing sh0 with
  | zero => exact ⟨hN, h0⟩
  | succ fuel ih =>
    unfold shiftOf
    by_cases h : N < 2 ^ (24 + sh0)
    · rw [if_pos h]
      exact ⟨h, h0⟩
    · rw [if_neg h]
      apply ih
      · right
        have e : 23 + (sh0 + 1) = 24 + sh0 := by omega
        rw [e]
        exact not_lt.mp h
      · have e : 24 + (sh0 + 1) + fuel = 24 + sh0 + (fuel + 1) := by omega
        rw [e]
        exact hN

/-- On multiples of `2^-32` the rounding `fl` is the integer rounding `roundShift`. -/
theorem fl_nat_units (N sh : Nat) (h1 : N < 2 ^ (24 + sh))
    (h2 : sh = 0 ∨ 2 ^ (23 + sh) ≤ N) :
    fl ((N : ℚ) / 2 ^ 32) = (roundShift N sh : ℚ) / 2 ^ 32 := by
  by_cases hsh : sh = 0
  · subst hsh
    have hN : |(N : Int)| < 2 ^ 24 := by
      rw [abs_of_nonneg (Int.natCast_nonneg N)]
      exact_mod_cast h1
    have h := fl_dyadic (N : Int) 32 hN (by decide)
    have hr : roundShift N 0 = N := by
      simp [roundShift, Nat.mod_one]
    rw [hr]
    rw [Int.cast_natCast] at h
    exact h
  · have hlo : 2 ^ (23 + sh) ≤ N := by
      rcases h2 with h | h
      · exact absurd h hsh
      · exact h
    have hloq : (2 : ℚ) ^ (23 + sh) ≤ (N : ℚ) := by exact_mod_cast hlo
    have hhiq : (N : ℚ) < 2 ^ (24 + sh) := by exact_mod_cast h1
    have h2ne : (2 : ℚ) ≠ 0 := by norm_num
    have hx0 : (0 : ℚ) ≤ (N : ℚ) / 2 ^ 32 := by positivity
    have z1 : (2 : ℚ) ^ ((sh : Int) - 9) = 2 ^ (23 + sh) / 2 ^ 32 := by
      rw [zpow_sub₀ h2ne, zpow_natCast, pow_add]
      norm_num
      ring
    have z2 : (2 : ℚ) ^ ((sh : Int) - 9 + 1) = 2 ^ (24 + sh) / 2 ^ 32 := by
      rw [show (sh : Int) - 9 + 1 = (sh : Int) - 8 by ring, zpow_sub₀ h2ne, zpow_natCast,
        pow_add]
      norm_num
      ring
    have z3 : (2 : ℚ) ^ ((sh : Int) - 9 - 23) = 2 ^ sh / 2 ^ 32 := by
      rw [show (sh : Int) - 9 - 23 = (sh : Int) - 32 by ring, zpow_sub₀ h2ne, zpow_natCast]
      norm_num
    have hfl := fl_of_binade ((N : ℚ) / 2 ^ 32) ((sh : Int) - 9) (by omega)
      (by
        rw [abs_of_nonneg hx0, z1]
        exact div_le_div_of_nonneg_right hloq (by positivity))
      (by
        rw [abs_of_nonneg hx0, z2]
        exact div_lt_div_of_pos_right hhiq (by positivity))
    rw [hfl, z3]
    have hq : (N : ℚ) / 2 ^ 32 / (2 ^ sh / 2 ^ 32) = (N : ℚ) / ((2 ^ sh : Nat) : ℚ) := by
      push_cast
      field_simp
    rw [hq, roundEven_nat_div N (2 ^ sh) (by positivity), Int.cast_natCast]
    unfold roundShift
    simp only [Nat.cast_mul, Nat.cast_pow, Nat.cast_ofNat]
    ring

theorem round24_spec (N : Nat) (hN : N < 2 ^ 33) :
    fl ((N : ℚ) / 2 ^ 32) = (round24 N : ℚ) / 2 ^ 32 := by
  obtain ⟨h1, h2⟩ := shiftOf_spec N 9 0 (Or.inl rfl) (by simpa using hN)
  exact fl_nat_units N _ h1 h2

/-- One call of the 2 Hz run, in units of `2^-32`. -/
theorem step2hz_spec (dis : Nat → ℚ) (s : State) (a : Inputs) (P : Nat)
    (hP : P < 2 ^ 32) (hs : s.phase = (P : ℚ) / 2 ^ 32) (hf : isFloat s.phase)
    (ha : fl (a.frequency * a.sampleTime) = 8589935 / 2 ^ 32) :
    (update dis s a).phase = (step2hz P : ℚ) / 2 ^ 32 ∧ step2hz P < 2 ^ 32 ∧
    isFloat (update dis s a).phase := by
  have hPq : (P : ℚ) < 2 ^ 32 := by exact_mod_cast hP
  have hs0 : isFloat s.phase ∧ 0 ≤ s.phase ∧ s.phase < 1 := by
    refine ⟨hf, ?_, ?_⟩
    · rw [hs]; positivity
    · rw [hs, div_lt_one (by positivity)]
      exact hPq
  have ha0 : 0 ≤ fl (a.frequency * a.sampleTime) ∧ fl (a.frequency * a.sampleTime) < 1 := by
    rw [ha]
    constructor <;> norm_num
  obtain ⟨e, ef, e0, e1⟩ := update_phase_float dis s a hs0 ha0
  have hsum : phaseSum s a = (round24 (P + 8589935) : ℚ) / 2 ^ 32 := by
    unfold phaseSum
    rw [ha, hs, ← round24_spec (P + 8589935) (by omega)]
    congr 1
    push_cast
    ring
  have hstep : (update dis s a).phase = (step2hz P : ℚ) / 2 ^ 32 := by
    rw [e, hsum]
    unfold step2hz
    by_cases hc : 2 ^ 32 ≤ round24 (P + 8589935)
    · have hcq : (round24 (P + 8589935) : ℚ) / 2 ^ 32 ≥ 1 := by
        rw [ge_iff_le, le_div_iff₀ (by positivity)]
        exact_mod_cast hc
      rw [if_pos hcq, if_pos hc, Nat.cast_sub hc, sub_div]
      norm_num
    · have hcq : ¬ (round24 (P + 8589935) : ℚ) / 2 ^ 32 ≥ 1 := by
        rw [ge_iff_le, le_div_iff₀ (by positivity)]
        intro h
        apply hc
        exact_mod_cast h
      rw [if_neg hcq, if_neg hc]
  refine ⟨hstep, ?_, ef⟩
  rw [hstep, div_lt_one (by positivity)] at e1
  exact_mod_cast e1

theorem emit_squareWave_of_not_skip_2hz (t : State) (a : Inputs) (P : Nat)
    (h : t.skipCycle = false) (hp : t.phase = (P : ℚ) / 2 ^ 32) (hw : a.pulseWidth = 1 / 2) :
    (emit t a).squareWave = if P < 2 ^ 31 then 10 else 0 := by
  have e : t.phase < a.pulseWidth ↔ P < 2 ^ 31 := by
    rw [hp, hw, div_lt_iff₀ (by positivity)]
    constructor
    · intro h1
      have h2 : (P : ℚ) < ((2 ^ 31 : Nat) : ℚ) := by push_cast; linarith
      exact_mod_cast h2
    · intro h1
      have h2 : (P : ℚ) < ((2 ^ 31 : Nat) : ℚ) := by exact_mod_cast h1
      push_cast at h2
      linarith
  simp [emit, h, e]

theorem count_highs_2hz (dis : Nat → ℚ) (hdis : ∀ n, 0 ≤ dis n) (a : Inputs)
    (hg : a.gate = 0 ∧ a.bleed = 0) (hw : a.pulseWidth = 1 / 2)
    (ha : fl (a.frequency * a.sampleTime) = 8589935 / 2 ^ 32) (n : Nat) (s : State) (P : Nat)
    (hP : P < 2 ^ 32) (hs : s.phase = (P : ℚ) / 2 ^ 32) (hf : isFloat s.phase)
    (hk : s.skipCycle = false ∧ s.bleedCounter = 0) :
    List.countP (fun o => decide (o.squareWave = 10)) (outputs dis s (List.replicate n a)) =
      highs2hz n P := by
  induction n generalizing s P with
  | zero => rfl
  | succ n ih =>
    obtain ⟨p1, p2, p3⟩ := step2hz_spec dis s a P hP hs hf ha
    have hk1 := update_gate_zero dis s a (hdis s.gen) hg hk
    have hrec := ih (process dis s a).1 (step2hz P) p2 p1 p3 hk1
    have hv := emit_squareWave_of_not_skip_2hz (update dis s a) a (step2hz P) hk1.1 p1 hw
    rw [List.replicate_succ]
    simp only [outputs, highs2hz]
    rw [List.countP_cons, hrec, process_snd, hv]
    by_cases hlt : step2hz P < 2 ^ 31
    · simp only [hlt, if_true]
      norm_num
      omega
    · simp only [hlt, if_false]
      norm_num

set_option maxRecDepth 1000000 in
theorem highs2hz_value : highs2hz 1000 0 = 499 := by
  decide

theorem fl_milli : fl (1 / 1000) = 8589935 / 8589934592 := by
  rw [fl_of_binade _ (-10) (by decide) (by rw [abs_of_nonneg (by norm_num)]; norm_num)
    (by rw [abs_of_nonneg (by norm_num)]; norm_num)]
  have e : (1 / 1000 : ℚ) / 2 ^ ((-10 : Int) - 23) = 8589934592 / 1000 := by
    norm_num [zpow_neg]
  rw [e, roundEven_eq_of_near _ 8589935 (by norm_num) (by norm_num)]
  norm_num [zpow_neg]

theorem fl_increment_2hz :
    fl ((Inputs.mk 2 (1 / 2) 0 0 (8589935 / 8589934592)).frequency *
      (Inputs.mk 2 (1 / 2) 0 0 (8589935 / 8589934592)).sampleTime) = 8589935 / 2 ^ 32 := by
  have h := fl_dyadic 8589935 32 (by decide) (by decide)
  show fl ((2 : ℚ) * (8589935 / 8589934592)) = 8589935 / 2 ^ 32
  rw [show (2 : ℚ) * (8589935 / 8589934592) = ((8589935 : Int) : ℚ) / 2 ^ 32 by norm_num]
  rw [h]
  norm_num

theorem count_2hz (dis : Nat → ℚ) (hdis : ∀ n, 0 ≤ dis n) :
    List.countP (fun o => decide (o.squareWave = 10))
      (outputs dis init
        (List.replicate 1000 (Inputs.mk 2 (1 / 2) 0 0 (8589935 / 8589934592)))) = 499 := by
  rw [count_highs_2hz dis hdis _ ⟨rfl, rfl⟩ rfl fl_increment_2hz 1000 init 0 (by decide)
    (by norm_num [init]) fl_zero ⟨rfl, rfl⟩]
  exact highs2hz_value

/-- C8 (amended). Scenario 2 Hz in binary32: the sample time is `8589935 * 2^-33`, the
binary32 value nearest 1/1000. Starting from the constructed state, 1000 calls with
`frequency = 2`, that sample time, `pulseWidth = 1/2`, `gate = 0`, `bleed = 0` and any
draws in `[0, 1)`: each call writes voltage 10 exactly when its updated phase is below
1/2, and exactly 499 of the 1000 calls write voltage 10. -/
theorem scenario_2hz (dis : Nat → ℚ) (hdis : ∀ n, 0 ≤ dis n ∧ dis n < 1) :
    fl (1 / 1000) = 8589935 / 8589934592 ∧
    (∀ n : Nat, n < 1000 →
      ((process dis
          (run dis init (List.replicate n (Inputs.mk 2 (1 / 2) 0 0 (8589935 / 8589934592))))
          (Inputs.mk 2 (1 / 2) 0 0 (8589935 / 8589934592))).2.squareWave = 10 ↔
        (process dis
          (run dis init (List.replicate n (Inputs.mk 2 (1 / 2) 0 0 (8589935 / 8589934592))))
          (Inputs.mk 2 (1 / 2) 0 0 (8589935 / 8589934592))).1.phase < 1 / 2)) ∧
    (outputs dis init
      (List.replicate 1000 (Inputs.mk 2 (1 / 2) 0 0 (8589935 / 8589934592)))).length = 1000 ∧
    List.countP (fun o => decide (o.squareWave = 10))
      (outputs dis init
        (List.replicate 1000 (Inputs.mk 2 (1 / 2) 0 0 (8589935 / 8589934592)))) = 499 := by
  have hd0 : ∀ n, 0 ≤ dis n := fun n => (hdis n).1
  refine ⟨fl_milli, ?_, ?_, count_2hz dis hd0⟩
  · intro n _
    have h0 := run_gate_zero dis init
      (List.replicate n (Inputs.mk 2 (1 / 2) 0 0 (8589935 / 8589934592))) hd0
      (fun b hb => by rw [List.eq_of_mem_replicate hb]; exact ⟨rfl, rfl⟩) ⟨rfl, rfl⟩
    have hs := (update_gate_zero dis _ (Inputs.mk 2 (1 / 2) 0 0 (8589935 / 8589934592))
      (hd0 _) ⟨rfl, rfl⟩ h0).1
    rw [process_snd, process_fst, emit_squareWave_of_not_skip _ _ hs]
    split_ifs with h
    · exact ⟨fun _ => h, fun _ => rfl⟩
    · constructor
      · intro h1
        norm_num at h1
      · intro h1
        exact absurd h1 h
  · rw [outputs_length, List.length_replicate]

/-- Witness for C8 (amended): all draws equal to 1/2. -/
theorem scenario_2hz_witness :
    List.countP (fun o => decide (o.squareWave = 10))
      (outputs (fun _ => 1 / 2) init
        (List.replicate 1000 (Inputs.mk 2 (1 / 2) 0 0 (8589935 / 8589934592)))) = 499 :=
  (scenario_2hz (fun _ => 1 / 2) (by intro n; norm_num)).2.2.2

/-- C8 (counterexample). With the binary32 sample time nearest 1/1000 and all draws equal
to 1/2, the 1000 calls of the scenario write voltage 10 on 499 calls, not on 500. -/
theorem scenario_2hz_counterexample :
    List.countP (fun o => decide (o.squareWave = 10))
      (outputs (fun _ => 1 / 2) init
        (List.replicate 1000 (Inputs.mk 2 (1 / 2) 0 0 (8589935 / 8589934592)))) = 499 ∧
    List.countP (fun o => decide (o.squareWave = 10))
      (outputs (fun _ => 1 / 2) init
        (List.replicate 1000 (Inputs.mk 2 (1 / 2) 0 0 (8589935 / 8589934592)))) ≠ 500 := by
  have h := count_2hz (fun _ => 1 / 2) (by intro n; norm_num)
  refine ⟨h, ?_⟩
  rw [h]
  decide


end MyModule
